import Mathlib

set_option maxHeartbeats 1600000

/-!
Verification of the dependency-graph library: a linked list, a directed
dependency graph with cycle-checking edge insertion (`addDependency` plus the
recursive `traverse`), topological queries (`getTopologicalSort`,
`getDependents`), and the textual serialization pair (`toString`, `Generate`).

The JS `Map`/`Set` pair backing the graph is embedded as an insertion-ordered
association list from items to insertion-ordered duplicate-free lists, which
matches the iteration order of the original containers.  The recursive
traversals receive an explicit fuel argument (the source recursion has no such
argument; termination on every finite state is proved as a theorem stating the
chosen fuel is never exhausted).
-/

variable {T : Type} [DecidableEq T]

/-- Lookup in the association list modelling `Map.get`: first entry wins. -/
def lookupRel : List (T × List T) → T → Option (List T)
  | [], _ => none
  | (k, v) :: rest, n => if k = n then some v else lookupRel rest n

/-- Removal of a key, modelling `Map.delete`. -/
def removeKey : List (T × List T) → T → List (T × List T)
  | [], _ => []
  | (k, v) :: rest, n => if k = n then rest else (k, v) :: removeKey rest n

/-- `Set.add`: append the element at the end unless already present. -/
def insertSet (l : List T) (x : T) : List T := if x ∈ l then l else l ++ [x]

/-- Modification of the adjacency set of `f`, modelling
`relationships.get(from).add(to)` (the map's entry order is unchanged). -/
def updateRel : List (T × List T) → T → T → List (T × List T)
  | [], _, _ => []
  | (k, v) :: rest, f, t =>
    if k = f then (k, insertSet v t) :: rest else (k, v) :: updateRel rest f t

/-- The dependency graph state: the `relationships` map and the node count. -/
structure DependencyGraph (T : Type) where
  relationships : List (T × List T)
  size : Nat

/-- The state produced by the constructor. -/
def DependencyGraph.empty (T : Type) : DependencyGraph T := ⟨[], 0⟩

/-- `contains`: membership of a node. -/
def DependencyGraph.contains (g : DependencyGraph T) (node : T) : Bool :=
  (lookupRel g.relationships node).isSome

/-- `add`: insert a node with an empty dependent set if absent. -/
def DependencyGraph.add (g : DependencyGraph T) (node : T) : DependencyGraph T :=
  if g.contains node then g else ⟨g.relationships ++ [(node, [])], g.size + 1⟩

/-- `remove`: delete the node's own entry if present. -/
def DependencyGraph.remove (g : DependencyGraph T) (node : T) : DependencyGraph T :=
  if g.contains node then ⟨removeKey g.relationships node, g.size - 1⟩ else g

/-- The node keys, in map iteration order (`getNodes`). -/
def DependencyGraph.keys (g : DependencyGraph T) : List T :=
  g.relationships.map Prod.fst

/-- `getDependents(node, true)`: the direct dependent set, empty if absent. -/
def DependencyGraph.getDependentsShallow (g : DependencyGraph T) (node : T) : List T :=
  (lookupRel g.relationships node).getD []

/-- `getAdjacentNodes`: the raw `Map.get`, which is `undefined` (here `none`)
for an absent node. -/
def DependencyGraph.getAdjacentNodes (g : DependencyGraph T) (node : T) : Option (List T) :=
  lookupRel g.relationships node

/-- `hasDependents`. -/
def DependencyGraph.hasDependents (g : DependencyGraph T) (node : T) : Bool :=
  g.contains node && !(g.getDependentsShallow node).isEmpty

/-- Every item that occurs in the graph state, as a key or inside an
adjacency set.  Any depth-first traversal only ever meets these items. -/
def DependencyGraph.mentioned (g : DependencyGraph T) : List T :=
  g.keys ++ g.relationships.flatMap Prod.snd

/-- Fuel that bounds the number of distinct items a traversal can visit. -/
def DependencyGraph.tFuel (g : DependencyGraph T) : Nat :=
  g.mentioned.dedup.length

/-- Number of mentioned items not yet visited: the decreasing measure of the
depth-first traversals. -/
def unvisited (g : DependencyGraph T) (V : List T) : Nat :=
  (g.mentioned.dedup.filter (fun x => decide (x ∉ V))).length

/-- One pass of the loop body of `traverse` over the remaining direct
dependents, with the recursive call abstracted as `f`:  raise on meeting
`node`, skip visited items, recurse otherwise. -/
def stepFold (f : T → List T → Option (Except Unit (List T))) (node : T) :
    List T → List T → Option (Except Unit (List T))
  | [], visited => some (Except.ok visited)
  | d :: rest, visited =>
    if d = node then some (Except.error ())
    else if d ∈ visited then stepFold f node rest visited
    else
      match f d visited with
      | none => none
      | some (Except.error e) => some (Except.error e)
      | some (Except.ok v') => stepFold f node rest v'

/-- The recursive `traverse(current, node, visited)`:  mark `current` visited,
then walk the direct dependents.  `none` models fuel exhaustion (never reached,
see the termination theorem), `some (Except.error ())` the thrown
circular-dependency error, `some (Except.ok v)` normal return with the final
visited set. -/
def traverseGo (g : DependencyGraph T) : Nat → T → T → List T → Option (Except Unit (List T))
  | 0, _, _, _ => none
  | fuel + 1, current, node, visited =>
    stepFold (fun d v => traverseGo g fuel d node v) node
      (g.getDependentsShallow current) (insertSet visited current)

/-- Whether a cycle-check traversal outcome is a raised error (a normal
return yields `false`; fuel exhaustion never happens and is mapped to
`true`). -/
def checkResultFlag : Option (Except Unit (List T)) → Bool
  | some (Except.ok _) => false
  | _ => true

/-- `addDependency`: auto-add both endpoints, insert the edge, then run the
cycle check from `from`.  The returned flag records whether
`CircularDependencyError` was raised; the mutated graph is returned in either
case, because the source performs no rollback. -/
def DependencyGraph.addDependency (g : DependencyGraph T) (f t : T) :
    DependencyGraph T × Bool :=
  let g1 := (g.add f).add t
  let g2 : DependencyGraph T := ⟨updateRel g1.relationships f t, g1.size⟩
  (g2, checkResultFlag (traverseGo g2 (g2.tFuel + 1) f f []))

/-- Loop body of `getTopologicalDependents` over the remaining direct
dependents, recursing through `f` into unvisited ones. -/
def topoFold (f : T → List T → List T → Option (List T × List T)) :
    List T → List T → List T → Option (List T × List T)
  | [], V, L => some (V, L)
  | d :: rest, V, L =>
    if d ∈ V then topoFold f rest V L
    else
      match f d V L with
      | none => none
      | some (V', L') => topoFold f rest V' L'

/-- `getTopologicalDependents(node, visited, list)`:  mark `node`, recurse into
unvisited direct dependents, then prepend `node` to the accumulating list. -/
def topoGo (g : DependencyGraph T) : Nat → T → List T → List T → Option (List T × List T)
  | 0, _, _, _ => none
  | fuel + 1, node, V, L =>
    match topoFold (fun d V' L' => topoGo g fuel d V' L')
        (g.getDependentsShallow node) (insertSet V node) L with
    | none => none
    | some (V', L') => some (V', node :: L')

/-- `getDependents(node)` with `shallow = false`:  empty for an absent node,
otherwise the topological dependents of `node` with the head (`node` itself)
removed. -/
def DependencyGraph.getDependentsDeep (g : DependencyGraph T) (node : T) : Option (List T) :=
  if g.contains node then
    match topoGo g (g.tFuel + 1) node [] [] with
    | none => none
    | some (_, L) => some L.tail
  else some []

/-- The loop of `getTopologicalSort` over the node keys, sharing one visited
set and one accumulating list. -/
def sortGo (g : DependencyGraph T) : List T → List T → List T → Option (List T)
  | [], _, L => some L
  | k :: ks, V, L =>
    if k ∈ V then sortGo g ks V L
    else
      match topoGo g (g.tFuel + 1) k V L with
      | none => none
      | some (V', L') => sortGo g ks V' L'

/-- `getTopologicalSort`. -/
def DependencyGraph.getTopologicalSort (g : DependencyGraph T) : Option (List T) :=
  sortGo g g.keys [] []

/-- The direct-dependent relation stored in the graph: `u` depends on `v`. -/
def edgeRel (g : DependencyGraph T) (u v : T) : Prop :=
  v ∈ g.getDependentsShallow u

instance (g : DependencyGraph T) (u v : T) : Decidable (edgeRel g u v) := by
  unfold edgeRel; infer_instance

/-- Reachability in zero or more direct-dependent steps. -/
def Reach (g : DependencyGraph T) : T → T → Prop :=
  Relation.ReflTransGen (edgeRel g)

/-- Absence of directed cycles: no closed walk of length at least one. -/
def Acyclic (g : DependencyGraph T) : Prop :=
  ∀ x y, Reach g x y → edgeRel g y x → False

/-- Strict order of two items in a result list. -/
def Before (l : List T) (u v : T) : Prop := List.Sublist [u, v] l

/-- The mutating operations of the graph API, for stating invariants over
arbitrary operation sequences. -/
inductive GOp (T : Type) where
  | addN (x : T)
  | removeN (x : T)
  | addDep (f t : T)

/-- Run a sequence of operations, continuing after a raised
`CircularDependencyError` and recording in the flag whether any
`addDependency` call raised. -/
def runOps : DependencyGraph T × Bool → List (GOp T) → DependencyGraph T × Bool
  | s, [] => s
  | (g, r), GOp.addN x :: rest => runOps (g.add x, r) rest
  | (g, r), GOp.removeN x :: rest => runOps (g.remove x, r) rest
  | (g, r), GOp.addDep f t :: rest =>
    runOps ((g.addDependency f t).1, r || (g.addDependency f t).2) rest

/-- The singly linked list: a chain of nodes from the head, plus the element
count. -/
structure LinkedList (T : Type) where
  items : List T
  count : Nat

/-- The list built by the constructor. -/
def LinkedList.emptyList (T : Type) : LinkedList T := ⟨[], 0⟩

/-- `insert`: prepend at the head. -/
def LinkedList.insert (l : LinkedList T) (x : T) : LinkedList T :=
  ⟨x :: l.items, l.count + 1⟩

/-- The iteration order of the list (head to tail). -/
def LinkedList.toList (l : LinkedList T) : List T := l.items

/-- `size`. -/
def LinkedList.size (l : LinkedList T) : Nat := l.count

/-- `first`. -/
def LinkedList.first (l : LinkedList T) : Option T := l.items.head?

/-- `remove`: drop the head if present, reporting success. -/
def LinkedList.removeFirst (l : LinkedList T) : LinkedList T × Bool :=
  match l.items with
  | [] => (l, false)
  | _ :: rest => (⟨rest, l.count - 1⟩, true)

/-- `toString` of the linked list: append each item's text plus a space, then
cut the final character (`substr(0, length - 1)`). -/
def LinkedList.format (reprFn : T → List Char) (l : LinkedList T) : List Char :=
  (l.items.flatMap (fun x => reprFn x ++ [' '])).dropLast

/-- The list obtained by inserting the given items, in order, into a fresh
list. -/
def buildLL (xs : List T) : LinkedList T :=
  xs.foldl LinkedList.insert (LinkedList.emptyList T)

/-- Space-separated join with no trailing separator: the specified rendering
of `toString`. -/
def joinSpace : List (List Char) → List Char
  | [] => []
  | [x] => x
  | x :: y :: rest => x ++ ' ' :: joinSpace (y :: rest)

/-- The two-character arrow token of the serialization format. -/
def arrowToken : List Char := ['-', '>']

/-- Whether `pat` matches at the start of the second list. -/
def isMatch : List Char → List Char → Bool
  | [], _ => true
  | _ :: _, [] => false
  | p :: ps, c :: cs => p == c && isMatch ps cs

/-- Scan for the first match position of `pat` at or after `i`, modelling
`String.indexOf(pat, i)`; `none` models the result `-1`. -/
def findFromAux (s pat : List Char) : Nat → Nat → Option Nat
  | 0, _ => none
  | fuel + 1, i =>
    if i + pat.length ≤ s.length then
      if isMatch pat (s.drop i) then some i else findFromAux s pat fuel (i + 1)
    else none

/-- `String.indexOf(pat, start)`. -/
def findFrom (s pat : List Char) (start : Nat) : Option Nat :=
  findFromAux s pat (s.length + 1 - start) start

/-- `String.substring(a, b)` for `a ≤ b`: the characters of positions
`a` to `b` exclusive. -/
def substrNat (s : List Char) (a b : Nat) : List Char := (s.drop a).take (b - a)

/-- One direct edge rendered as a `from->to` line. -/
def lineOf (e : List Char × List Char) : List Char :=
  e.1 ++ arrowToken ++ e.2 ++ ['\n']

/-- All direct edges of the graph in emission order: nodes in map order, each
with its dependents in set order. -/
def DependencyGraph.edgeList (g : DependencyGraph T) : List (T × T) :=
  g.keys.flatMap (fun k => (g.getDependentsShallow k).map (fun d => (k, d)))

/-- `toString` of the graph: one `from->to` line per direct edge. -/
def DependencyGraph.toString (g : DependencyGraph (List Char)) : List Char :=
  g.edgeList.flatMap lineOf

/-- The parsing loop of `Generate`.  Each iteration looks for the next arrow
token (the loop stops when it is absent or at position zero), splits out the
`from` and `to` identifiers, and inserts the edge; a raised
`CircularDependencyError` propagates out as `Except.error`.  When no newline
follows the arrow, the source computes `substring(start + 1, -1)` — which
JavaScript reorders to the prefix up to `start + 1` — and continues scanning
from position `0`; fuel exhaustion (`none`) models the endless loop this can
produce. -/
def generateGo : Nat → DependencyGraph (List Char) → List Char → Nat →
    Option (Except Unit (DependencyGraph (List Char)))
  | 0, _, _, _ => none
  | fuel + 1, g, s, start =>
    match findFrom s arrowToken start with
    | none => some (Except.ok g)
    | some index =>
      if index = 0 then some (Except.ok g)
      else
        let f := substrNat s start index
        match findFrom s ['\n'] index with
        | some nl =>
          let t := substrNat s (index + 2) nl
          let p := g.addDependency f t
          if p.2 then some (Except.error ()) else generateGo fuel p.1 s (nl + 1)
        | none =>
          let t := s.take (index + 2)
          let p := g.addDependency f t
          if p.2 then some (Except.error ()) else generateGo fuel p.1 s 0

/-- The static `Generate`.  The fuel `s.length + 1` covers every input on
which the source loop terminates, because each iteration that finds a newline
advances the scan position. -/
def DependencyGraph.Generate (s : List Char) :
    Option (Except Unit (DependencyGraph (List Char))) :=
  generateGo (s.length + 1) (DependencyGraph.empty (List Char)) s 0

/-- `addDependency` folded over a list of edges, propagating a raised error,
for describing the parse loop. -/
def foldAdd : DependencyGraph (List Char) → List (List Char × List Char) →
    Except Unit (DependencyGraph (List Char))
  | g, [] => Except.ok g
  | g, e :: rest =>
    let p := g.addDependency e.1 e.2
    if p.2 then Except.error () else foldAdd p.1 rest

/-- The serialized text of a list of edges. -/
def linesFlat (es : List (List Char × List Char)) : List Char :=
  es.flatMap lineOf

/-- No two adjacent characters of the list form the arrow token. -/
def arrowPairFree : List Char → Bool
  | [] => true
  | [_] => true
  | a :: b :: rest => !(a == '-' && b == '>') && arrowPairFree (b :: rest)

/-- The identifier contains neither the arrow token nor a newline. -/
def idArrowNlFree (s : List Char) : Bool := arrowPairFree s && !(s.contains '\n')

/-- The identifier is additionally nonempty. -/
def goodId (s : List Char) : Bool := !(s.isEmpty) && idArrowNlFree s

/-- Every identifier occurring in an edge of the graph contains neither the
arrow token nor a newline. -/
def DependencyGraph.idsArrowNlFree (g : DependencyGraph (List Char)) : Bool :=
  g.edgeList.all (fun e => idArrowNlFree e.1 && idArrowNlFree e.2)

/-- Every identifier occurring in an edge of the graph is nonempty and
contains neither the arrow token nor a newline. -/
def DependencyGraph.idsGood (g : DependencyGraph (List Char)) : Bool :=
  g.edgeList.all (fun e => goodId e.1 && goodId e.2)

/-- The keys of the `relationships` map are pairwise distinct, as they are in
a real `Map`; every state reachable from the empty graph satisfies this. -/
def KeysNodup (g : DependencyGraph T) : Prop := g.keys.Nodup

/-- Postcondition of a normally returning call of the cycle-check traversal:
the visited set only grows, and any item that became visited had all its
direct dependents examined — none of them is `node`, and all of them ended up
visited. -/
def TravOk (g : DependencyGraph T) (node : T) (V V' : List T) : Prop :=
  (∀ x, x ∈ V → x ∈ V') ∧
  ∀ u, u ∈ V' → u ∉ V →
    node ∉ g.getDependentsShallow u ∧
      ∀ v, v ∈ g.getDependentsShallow u → v ∈ V'

/-- Shape of one topological traversal: `Ln` is the block of newly listed
items; they are exactly the newly visited ones, all reachable from `root`,
and each has its whole dependent set visited. -/
def ShapeProps (g : DependencyGraph T) (root : T) (V Ln V' : List T) : Prop :=
  (∀ x, x ∈ V' ↔ x ∈ V ∨ x ∈ Ln) ∧
  (∀ x, x ∈ Ln → x ∉ V) ∧
  (∀ x, x ∈ Ln → Reach g root x) ∧
  (∀ u, u ∈ Ln → ∀ v, v ∈ g.getDependentsShallow u → v ∈ V')

/-- Invariant tying the accumulating list of the topological traversals to the
visited set: the list has no duplicates, lists only visited items, and every
listed item precedes each of its listed direct dependents, its unlisted ones
being at least visited. -/
def OrderInv (g : DependencyGraph T) (V L : List T) : Prop :=
  L.Nodup ∧ (∀ x, x ∈ L → x ∈ V) ∧
  ∀ u, u ∈ L → ∀ v, v ∈ g.getDependentsShallow u →
    (v ∈ L → Before L u v) ∧ (v ∉ L → v ∈ V)

/-- A two-node, one-edge graph state, used as a concrete test input. -/
def gAB : DependencyGraph Nat := ⟨[(0, [1]), (1, [])], 2⟩

/-- The graph holding the single edge from the empty identifier to `b`. -/
def gEmptyFrom : DependencyGraph (List Char) :=
  ((DependencyGraph.empty (List Char)).addDependency [] ['b']).1

/-- A two-node, one-edge graph over textual identifiers. -/
def gRound : DependencyGraph (List Char) := ⟨[(['a'], [['b']]), (['b'], [])], 2⟩

/-! ### Basic facts about the map operations -/


theorem lookup_isSome_iff {rel : List (T × List T)} {n : T} :
    (lookupRel rel n).isSome = true ↔ n ∈ rel.map Prod.fst := by
  induction rel with
  | nil => simp [lookupRel]
  | cons p rest ih =>
    obtain ⟨k, v⟩ := p
    by_cases h : k = n
    · simp [lookupRel, h]
    · simp only [lookupRel, if_neg h, ih, List.map_cons, List.mem_cons]
      constructor
      · exact fun hm => Or.inr hm
      · rintro (rfl | hm) <;> [exact absurd rfl h; exact hm]

theorem contains_iff_mem_keys {g : DependencyGraph T} {n : T} :
    g.contains n = true ↔ n ∈ g.keys := lookup_isSome_iff

theorem lookup_eq_none_of_not_mem {rel : List (T × List T)} {n : T}
    (h : n ∉ rel.map Prod.fst) : lookupRel rel n = none := by
  cases hl : lookupRel rel n with
  | none => rfl
  | some v =>
    exact absurd (lookup_isSome_iff.mp (by simp [hl])) h

theorem mem_insertSet {l : List T} {x y : T} :
    y ∈ insertSet l x ↔ y ∈ l ∨ y = x := by
  unfold insertSet
  by_cases h : x ∈ l
  · simp only [if_pos h]
    constructor
    · exact fun hy => Or.inl hy
    · rintro (hy | rfl) <;> [exact hy; exact h]
  · simp [if_neg h]

theorem shallowDeps_add (g : DependencyGraph T) (x n : T) :
    (g.add x).getDependentsShallow n = g.getDependentsShallow n := by
  unfold DependencyGraph.add
  by_cases h : g.contains x = true
  · simp [h]
  · simp only [h]
    unfold DependencyGraph.getDependentsShallow
    simp only [Bool.false_eq_true, if_false]
    induction g.relationships with
    | nil =>
      by_cases hnx : x = n <;> simp [lookupRel, hnx]
    | cons p rest ih =>
      obtain ⟨k, v⟩ := p
      by_cases hk : k = n <;> simp_all [lookupRel, hk]

theorem edge_add (g : DependencyGraph T) (x u v : T) :
    edgeRel (g.add x) u v ↔ edgeRel g u v := by
  unfold edgeRel; rw [shallowDeps_add]

theorem contains_add (g : DependencyGraph T) (x n : T) :
    (g.add x).contains n = true ↔ g.contains n = true ∨ n = x := by
  unfold DependencyGraph.add
  by_cases h : g.contains x = true
  · simp only [h, if_true]
    constructor
    · exact fun hc => Or.inl hc
    · rintro (hc | rfl) <;> [exact hc; exact h]
  · simp only [h, Bool.false_eq_true, if_false]
    rw [DependencyGraph.contains, lookup_isSome_iff, DependencyGraph.contains,
      lookup_isSome_iff]
    simp [DependencyGraph.keys]

theorem keys_updateRel (rel : List (T × List T)) (f t : T) :
    (updateRel rel f t).map Prod.fst = rel.map Prod.fst := by
  induction rel with
  | nil => rfl
  | cons p rest ih =>
    obtain ⟨k, v⟩ := p
    by_cases h : k = f <;> simp [updateRel, h, ih]

theorem lookup_updateRel (rel : List (T × List T)) (f t n : T) :
    lookupRel (updateRel rel f t) n =
      if n = f then (lookupRel rel f).map (fun v => insertSet v t)
      else lookupRel rel n := by
  induction rel with
  | nil => by_cases h : n = f <;> simp [updateRel, lookupRel, h]
  | cons p rest ih =>
    obtain ⟨k, v⟩ := p
    by_cases hk : k = f
    · subst hk
      by_cases hn : n = k
      · subst hn; simp [updateRel, lookupRel]
      · simp [updateRel, lookupRel, hn, Ne.symm hn]
    · by_cases hn : k = n
      · have hnf : ¬ n = f := fun h2 => hk (hn.trans h2)
        simp [updateRel, lookupRel, hk, hn, hnf]
      · simp [updateRel, lookupRel, hk, hn, ih]

/-! ### The state produced by `addDependency` -/

theorem addDependency_fst (g : DependencyGraph T) (f t : T) :
    (g.addDependency f t).1 =
      ⟨updateRel ((g.add f).add t).relationships f t, ((g.add f).add t).size⟩ := rfl

theorem addDependency_snd (g : DependencyGraph T) (f t : T) :
    (g.addDependency f t).2 =
      checkResultFlag (traverseGo (g.addDependency f t).1
        ((g.addDependency f t).1.tFuel + 1) f f []) := rfl

theorem checkResultFlag_eq_false_iff (o : Option (Except Unit (List T))) :
    checkResultFlag o = false ↔ ∃ V', o = some (Except.ok V') := by
  rcases o with _ | e
  · simp [checkResultFlag]
  · rcases e with e | v <;> simp [checkResultFlag]

theorem shallowDeps_addDependency (g : DependencyGraph T) (f t n : T) :
    (g.addDependency f t).1.getDependentsShallow n =
      if n = f then insertSet (g.getDependentsShallow f) t
      else g.getDependentsShallow n := by
  have h1 : (g.add f).contains f = true := (contains_add g f f).mpr (Or.inr rfl)
  have h2 : ((g.add f).add t).contains f = true :=
    (contains_add (g.add f) t f).mpr (Or.inl h1)
  rw [addDependency_fst]
  show (lookupRel (updateRel ((g.add f).add t).relationships f t) n).getD [] = _
  rw [lookup_updateRel]
  by_cases h : n = f
  · rw [if_pos h, if_pos h]
    cases hl : lookupRel ((g.add f).add t).relationships f with
    | none =>
      rw [DependencyGraph.contains, hl] at h2
      simp at h2
    | some v =>
      have hv : ((g.add f).add t).getDependentsShallow f = v := by
        rw [DependencyGraph.getDependentsShallow, hl]; rfl
      rw [shallowDeps_add, shallowDeps_add] at hv
      simp [hv]
  · rw [if_neg h, if_neg h]
    show ((g.add f).add t).getDependentsShallow n = _
    rw [shallowDeps_add, shallowDeps_add]

theorem edge_addDependency (g : DependencyGraph T) (f t u v : T) :
    edgeRel (g.addDependency f t).1 u v ↔ edgeRel g u v ∨ (u = f ∧ v = t) := by
  unfold edgeRel
  rw [shallowDeps_addDependency]
  by_cases h : u = f
  · subst h
    rw [if_pos rfl, mem_insertSet]
    constructor
    · rintro (hv | rfl)
      · exact Or.inl hv
      · exact Or.inr ⟨rfl, rfl⟩
    · rintro (hv | ⟨-, rfl⟩)
      · exact Or.inl hv
      · exact Or.inr rfl
  · rw [if_neg h]
    constructor
    · exact fun hv => Or.inl hv
    · rintro (hv | ⟨rfl, -⟩)
      · exact hv
      · exact absurd rfl h

theorem contains_addDependency (g : DependencyGraph T) (f t n : T) :
    (g.addDependency f t).1.contains n = true ↔
      g.contains n = true ∨ n = f ∨ n = t := by
  rw [addDependency_fst]
  rw [DependencyGraph.contains, lookup_isSome_iff]
  show n ∈ (updateRel ((g.add f).add t).relationships f t).map Prod.fst ↔ _
  rw [keys_updateRel]
  rw [show (((g.add f).add t).relationships.map Prod.fst) = ((g.add f).add t).keys from rfl]
  rw [← contains_iff_mem_keys, contains_add, contains_add]
  tauto

/-! ### Acyclicity transfers along edge inclusion -/

theorem reach_mono {g g' : DependencyGraph T}
    (h : ∀ u v, edgeRel g' u v → edgeRel g u v) {a b : T} (hr : Reach g' a b) :
    Reach g a b :=
  Relation.ReflTransGen.mono h hr

theorem acyclic_antitone {g g' : DependencyGraph T}
    (h : ∀ u v, edgeRel g' u v → edgeRel g u v) (ha : Acyclic g) : Acyclic g' :=
  fun x y hr he => ha x y (reach_mono h hr) (h _ _ he)

theorem acyclic_empty : Acyclic (DependencyGraph.empty T) := by
  intro x y _ he
  simp [edgeRel, DependencyGraph.empty, DependencyGraph.getDependentsShallow,
    lookupRel] at he

/-! ### Removal -/

theorem keys_removeKey_sublist (rel : List (T × List T)) (n : T) :
    List.Sublist ((removeKey rel n).map Prod.fst) (rel.map Prod.fst) := by
  induction rel with
  | nil => simp [removeKey]
  | cons p rest ih =>
    obtain ⟨k, v⟩ := p
    by_cases h : k = n
    · simp only [removeKey, if_pos h, List.map_cons]
      exact List.Sublist.cons _ (List.Sublist.refl _)
    · simp only [removeKey, if_neg h, List.map_cons]
      exact List.Sublist.cons₂ _ ih

theorem lookup_removeKey {rel : List (T × List T)} (hnd : (rel.map Prod.fst).Nodup)
    (n m : T) :
    lookupRel (removeKey rel n) m = if m = n then none else lookupRel rel m := by
  induction rel with
  | nil => by_cases h : m = n <;> simp [removeKey, lookupRel, h]
  | cons p rest ih =>
    obtain ⟨k, v⟩ := p
    simp only [List.map_cons, List.nodup_cons] at hnd
    obtain ⟨hknot, hnd'⟩ := hnd
    by_cases hkn : k = n
    · subst hkn
      by_cases hm : m = k
      · subst hm
        rw [removeKey, if_pos rfl, if_pos rfl,
          lookup_eq_none_of_not_mem hknot]
      · rw [removeKey, if_pos rfl, if_neg hm, lookupRel,
          if_neg (fun h => hm h.symm)]
    · by_cases hm : k = m
      · subst hm
        have hmn : ¬ k = n := hkn
        rw [removeKey, if_neg hkn, lookupRel, if_pos rfl, if_neg hmn,
          lookupRel, if_pos rfl]
      · rw [removeKey, if_neg hkn, lookupRel, if_neg hm, ih hnd',
          lookupRel, if_neg hm]

theorem edge_remove {g : DependencyGraph T} (hnd : KeysNodup g) (x u v : T)
    (h : edgeRel (g.remove x) u v) : edgeRel g u v := by
  unfold DependencyGraph.remove at h
  by_cases hc : g.contains x = true
  · rw [if_pos hc] at h
    unfold edgeRel DependencyGraph.getDependentsShallow at h ⊢
    rw [show (⟨removeKey g.relationships x, g.size - 1⟩ :
        DependencyGraph T).relationships = removeKey g.relationships x from rfl,
      lookup_removeKey hnd x u] at h
    by_cases hu : u = x
    · rw [if_pos hu] at h; simp at h
    · rwa [if_neg hu] at h
  · rwa [if_neg hc] at h

/-! ### Keys stay duplicate-free under every operation -/

theorem keysNodup_empty : KeysNodup (DependencyGraph.empty T) := by
  simp [KeysNodup, DependencyGraph.keys, DependencyGraph.empty]

theorem keysNodup_add {g : DependencyGraph T} (h : KeysNodup g) (x : T) :
    KeysNodup (g.add x) := by
  unfold DependencyGraph.add
  by_cases hc : g.contains x = true
  · rwa [if_pos hc]
  · rw [if_neg hc]
    unfold KeysNodup DependencyGraph.keys at h ⊢
    have hx : x ∉ g.relationships.map Prod.fst := by
      intro hm
      exact hc (contains_iff_mem_keys.mpr hm)
    simp only [List.map_append, List.map_cons, List.map_nil]
    rw [List.nodup_append]
    refine ⟨h, List.nodup_singleton x, ?_⟩
    intro a ha hb
    simp only [List.mem_singleton] at hb
    subst hb
    exact hx ha

theorem keysNodup_remove {g : DependencyGraph T} (h : KeysNodup g) (x : T) :
    KeysNodup (g.remove x) := by
  unfold DependencyGraph.remove
  by_cases hc : g.contains x = true
  · rw [if_pos hc]
    exact List.Nodup.sublist (keys_removeKey_sublist g.relationships x) h
  · rwa [if_neg hc]

theorem keysNodup_addDependency {g : DependencyGraph T} (h : KeysNodup g) (f t : T) :
    KeysNodup (g.addDependency f t).1 := by
  rw [addDependency_fst]
  unfold KeysNodup DependencyGraph.keys
  rw [show (⟨updateRel ((g.add f).add t).relationships f t,
      ((g.add f).add t).size⟩ : DependencyGraph T).relationships =
      updateRel ((g.add f).add t).relationships f t from rfl,
    keys_updateRel]
  exact keysNodup_add (keysNodup_add h f) t

/-! ### The `mentioned` list and the traversal measure -/

theorem lookup_entry_mem {rel : List (T × List T)} {n : T} {v : List T}
    (h : lookupRel rel n = some v) : (n, v) ∈ rel := by
  induction rel with
  | nil => simp [lookupRel] at h
  | cons p rest ih =>
    obtain ⟨k, w⟩ := p
    by_cases hk : k = n
    · subst hk
      rw [lookupRel, if_pos rfl] at h
      obtain rfl : w = v := by injection h
      exact List.mem_cons_self _ _
    · rw [lookupRel, if_neg hk] at h
      exact List.mem_cons_of_mem _ (ih h)

theorem shallowDeps_subset_mentioned {g : DependencyGraph T} {u v : T}
    (h : v ∈ g.getDependentsShallow u) : v ∈ g.mentioned := by
  unfold DependencyGraph.getDependentsShallow at h
  cases hl : lookupRel g.relationships u with
  | none => rw [hl] at h; simp at h
  | some l =>
    rw [hl] at h
    simp only [Option.getD_some] at h
    have hm : (u, l) ∈ g.relationships := lookup_entry_mem hl
    unfold DependencyGraph.mentioned
    refine List.mem_append.mpr (Or.inr ?_)
    exact List.mem_flatMap.mpr ⟨(u, l), hm, h⟩

theorem edge_mem_keys {g : DependencyGraph T} {u v : T} (h : edgeRel g u v) :
    u ∈ g.keys := by
  unfold edgeRel DependencyGraph.getDependentsShallow at h
  cases hl : lookupRel g.relationships u with
  | none => rw [hl] at h; simp at h
  | some l =>
    refine contains_iff_mem_keys.mp ?_
    rw [DependencyGraph.contains, hl]; rfl

theorem mem_keys_mem_mentioned {g : DependencyGraph T} {u : T} (h : u ∈ g.keys) :
    u ∈ g.mentioned :=
  List.mem_append.mpr (Or.inl h)

theorem shallowDeps_nil_of_not_mem_keys {g : DependencyGraph T} {u : T}
    (h : u ∉ g.keys) : g.getDependentsShallow u = [] := by
  unfold DependencyGraph.getDependentsShallow
  rw [lookup_eq_none_of_not_mem h]; rfl

theorem length_filter_le_of_imp {p q : T → Bool} (himp : ∀ x, q x = true → p x = true)
    (l : List T) : (l.filter q).length ≤ (l.filter p).length := by
  induction l with
  | nil => simp
  | cons a l ih =>
    by_cases hq : q a = true
    · rw [List.filter_cons_of_pos hq, List.filter_cons_of_pos (himp a hq)]
      simpa using ih
    · rw [List.filter_cons_of_neg (by simpa using hq)]
      by_cases hp : p a = true
      · rw [List.filter_cons_of_pos hp]
        exact ih.trans (Nat.le_succ _)
      · rw [List.filter_cons_of_neg (by simpa using hp)]
        exact ih

theorem length_filter_lt_of_mem {p q : T → Bool} (himp : ∀ x, q x = true → p x = true) :
    ∀ (l : List T) (c : T), c ∈ l → p c = true → q c = false →
      (l.filter q).length < (l.filter p).length := by
  intro l
  induction l with
  | nil => intro c hc; simp at hc
  | cons a l ih =>
    intro c hc hp hq
    rcases List.mem_cons.mp hc with rfl | hc
    · rw [List.filter_cons_of_pos hp, List.filter_cons_of_neg (by simp [hq])]
      exact Nat.lt_succ_of_le (length_filter_le_of_imp himp l)
    · by_cases hqa : q a = true
      · rw [List.filter_cons_of_pos hqa, List.filter_cons_of_pos (himp a hqa)]
        simpa using ih c hc hp hq
      · rw [List.filter_cons_of_neg (by simpa using hqa)]
        by_cases hpa : p a = true
        · rw [List.filter_cons_of_pos hpa]
          exact (ih c hc hp hq).trans (Nat.lt_succ_self _)
        · rw [List.filter_cons_of_neg (by simpa using hpa)]
          exact ih c hc hp hq

theorem unvisited_le_tFuel (g : DependencyGraph T) (V : List T) :
    unvisited g V ≤ g.tFuel := by
  unfold unvisited DependencyGraph.tFuel
  exact List.length_filter_le _ _

theorem unvisited_le_of_subset {g : DependencyGraph T} {V V' : List T}
    (h : ∀ x, x ∈ V → x ∈ V') : unvisited g V' ≤ unvisited g V := by
  unfold unvisited
  refine length_filter_le_of_imp (fun x hx => ?_) _
  simp only [decide_eq_true_eq] at hx ⊢
  exact fun hm => hx (h x hm)

theorem unvisited_insertSet_lt {g : DependencyGraph T} {V : List T} {c : T}
    (hc : c ∈ g.mentioned) (hnv : c ∉ V) :
    unvisited g (insertSet V c) < unvisited g V := by
  unfold unvisited
  refine length_filter_lt_of_mem (fun x hx => ?_) _ c (List.mem_dedup.mpr hc)
    (by simpa using hnv) ?_
  · simp only [decide_eq_true_eq] at hx ⊢
    exact fun hm => hx (mem_insertSet.mpr (Or.inl hm))
  · simp only [decide_eq_false_iff_not, Decidable.not_not]
    exact mem_insertSet.mpr (Or.inr rfl)

theorem mem_insertSet_self (V : List T) (c : T) : c ∈ insertSet V c :=
  mem_insertSet.mpr (Or.inr rfl)

theorem mem_insertSet_of_mem {V : List T} {x : T} (c : T) (h : x ∈ V) :
    x ∈ insertSet V c :=
  mem_insertSet.mpr (Or.inl h)

/-! ### Correctness of the cycle-check traversal -/

theorem travOk_refl (g : DependencyGraph T) (node : T) (V : List T) :
    TravOk g node V V :=
  ⟨fun _ hx => hx, fun u hu hnu => absurd hu hnu⟩

theorem travOk_trans {g : DependencyGraph T} {node : T} {V V₁ V₂ : List T}
    (h1 : TravOk g node V V₁) (h2 : TravOk g node V₁ V₂) : TravOk g node V V₂ := by
  obtain ⟨s1, n1⟩ := h1
  obtain ⟨s2, n2⟩ := h2
  refine ⟨fun x hx => s2 x (s1 x hx), fun u hu hnu => ?_⟩
  by_cases h : u ∈ V₁
  · obtain ⟨ha, hb⟩ := n1 u h hnu
    exact ⟨ha, fun v hv => s2 v (hb v hv)⟩
  · exact n2 u hu h

theorem stepFold_ok {g : DependencyGraph T}
    {f : T → List T → Option (Except Unit (List T))} {node : T}
    (hf : ∀ d V V', f d V = some (Except.ok V') → TravOk g node V V' ∧ d ∈ V') :
    ∀ {ds V V'}, stepFold f node ds V = some (Except.ok V') →
      TravOk g node V V' ∧ ∀ d, d ∈ ds → d ≠ node ∧ d ∈ V' := by
  intro ds
  induction ds with
  | nil =>
    intro V V' h
    simp only [stepFold, Option.some.injEq, Except.ok.injEq] at h
    subst h
    exact ⟨travOk_refl g node V, fun d hd => absurd hd (List.not_mem_nil d)⟩
  | cons d rest ih =>
    intro V V' h
    simp only [stepFold] at h
    by_cases h1 : d = node
    · rw [if_pos h1] at h
      exact absurd h (by simp)
    · rw [if_neg h1] at h
      by_cases h2 : d ∈ V
      · rw [if_pos h2] at h
        obtain ⟨ht, hds⟩ := ih h
        refine ⟨ht, fun e he => ?_⟩
        rcases List.mem_cons.mp he with rfl | he
        · exact ⟨h1, ht.1 e h2⟩
        · exact hds e he
      · rw [if_neg h2] at h
        cases hfd : f d V with
        | none => rw [hfd] at h; exact absurd h (by simp)
        | some r =>
          rw [hfd] at h
          cases r with
          | error e => exact absurd h (by simp)
          | ok V₁ =>
            obtain ⟨ht1, hd1⟩ := hf d V V₁ hfd
            obtain ⟨ht2, hds⟩ := ih h
            refine ⟨travOk_trans ht1 ht2, fun e he => ?_⟩
            rcases List.mem_cons.mp he with rfl | he
            · exact ⟨h1, ht2.1 e hd1⟩
            · exact hds e he

theorem traverseGo_ok (g : DependencyGraph T) :
    ∀ (fuel : Nat) (current node : T) (V V' : List T),
      traverseGo g fuel current node V = some (Except.ok V') →
      TravOk g node V V' ∧ current ∈ V' := by
  intro fuel
  induction fuel with
  | zero =>
    intro c n V V' h
    simp [traverseGo] at h
  | succ fuel ih =>
    intro c n V V' h
    rw [traverseGo] at h
    have hf : ∀ d V₀ V₁, traverseGo g fuel d n V₀ = some (Except.ok V₁) →
        TravOk g n V₀ V₁ ∧ d ∈ V₁ := fun d V₀ V₁ hd => ih d n V₀ V₁ hd
    obtain ⟨ht, hds⟩ := stepFold_ok hf h
    constructor
    · refine ⟨fun x hx => ht.1 x (mem_insertSet_of_mem c hx), ?_⟩
      intro u hu hnu
      by_cases huc : u = c
      · subst huc
        refine ⟨fun hmem => absurd rfl (hds n hmem).1, fun v hv => (hds v hv).2⟩
      · have hns : u ∉ insertSet V c := by
          intro hm
          rcases mem_insertSet.mp hm with hm | hm
          · exact hnu hm
          · exact huc hm
        exact ht.2 u hu hns
    · exact ht.1 c (mem_insertSet_self V c)

theorem stepFold_err {g : DependencyGraph T}
    {f : T → List T → Option (Except Unit (List T))} {node : T}
    (hfe : ∀ d V, f d V = some (Except.error ()) →
      ∃ u, Reach g d u ∧ node ∈ g.getDependentsShallow u) :
    ∀ {ds V}, stepFold f node ds V = some (Except.error ()) →
      node ∈ ds ∨ ∃ d, d ∈ ds ∧ ∃ u, Reach g d u ∧ node ∈ g.getDependentsShallow u := by
  intro ds
  induction ds with
  | nil =>
    intro V h
    simp [stepFold] at h
  | cons d rest ih =>
    intro V h
    simp only [stepFold] at h
    by_cases h1 : d = node
    · exact Or.inl (h1 ▸ List.mem_cons_self d rest)
    · rw [if_neg h1] at h
      by_cases h2 : d ∈ V
      · rw [if_pos h2] at h
        rcases ih h with hm | ⟨e, he, hu⟩
        · exact Or.inl (List.mem_cons_of_mem d hm)
        · exact Or.inr ⟨e, List.mem_cons_of_mem d he, hu⟩
      · rw [if_neg h2] at h
        cases hfd : f d V with
        | none => rw [hfd] at h; exact absurd h (by simp)
        | some r =>
          rw [hfd] at h
          cases r with
          | error e =>
            cases e
            exact Or.inr ⟨d, List.mem_cons_self d rest, hfe d V hfd⟩
          | ok V₁ =>
            rcases ih h with hm | ⟨e, he, hu⟩
            · exact Or.inl (List.mem_cons_of_mem d hm)
            · exact Or.inr ⟨e, List.mem_cons_of_mem d he, hu⟩

theorem traverseGo_err (g : DependencyGraph T) :
    ∀ (fuel : Nat) (current node : T) (V : List T),
      traverseGo g fuel current node V = some (Except.error ()) →
      ∃ u, Reach g current u ∧ node ∈ g.getDependentsShallow u := by
  intro fuel
  induction fuel with
  | zero =>
    intro c n V h
    simp [traverseGo] at h
  | succ fuel ih =>
    intro c n V h
    rw [traverseGo] at h
    have hfe : ∀ d V₀, traverseGo g fuel d n V₀ = some (Except.error ()) →
        ∃ u, Reach g d u ∧ n ∈ g.getDependentsShallow u :=
      fun d V₀ hd => ih d n V₀ hd
    rcases stepFold_err hfe h with hmem | ⟨d, hd, u, hru, hnu⟩
    · exact ⟨c, Relation.ReflTransGen.refl, hmem⟩
    · exact ⟨u, Relation.ReflTransGen.head hd hru, hnu⟩

theorem stepFold_suff {g : DependencyGraph T}
    {f : T → List T → Option (Except Unit (List T))} {node : T} {fuel : Nat}
    (hfs : ∀ d V, d ∈ g.mentioned → d ∉ V → unvisited g V ≤ fuel → f d V ≠ none)
    (hfo : ∀ d V V', f d V = some (Except.ok V') → ∀ x, x ∈ V → x ∈ V') :
    ∀ (ds V : List T), (∀ d, d ∈ ds → d ∈ g.mentioned) →
      unvisited g V ≤ fuel → stepFold f node ds V ≠ none := by
  intro ds
  induction ds with
  | nil =>
    intro V _ _
    simp [stepFold]
  | cons d rest ih =>
    intro V hds hm
    simp only [stepFold]
    by_cases h1 : d = node
    · rw [if_pos h1]; simp
    · rw [if_neg h1]
      by_cases h2 : d ∈ V
      · rw [if_pos h2]
        exact ih V (fun e he => hds e (List.mem_cons_of_mem d he)) hm
      · rw [if_neg h2]
        cases hfd : f d V with
        | none =>
          exact absurd hfd (hfs d V (hds d (List.mem_cons_self d rest)) h2 hm)
        | some r =>
          cases r with
          | error e => simp
          | ok V₁ =>
            have hsub : ∀ x, x ∈ V → x ∈ V₁ := hfo d V V₁ hfd
            exact ih V₁ (fun e he => hds e (List.mem_cons_of_mem d he))
              ((unvisited_le_of_subset hsub).trans hm)

theorem traverseGo_suff (g : DependencyGraph T) :
    ∀ (fuel : Nat) (current node : T) (V : List T),
      current ∈ g.mentioned → current ∉ V → unvisited g V ≤ fuel →
      traverseGo g fuel current node V ≠ none := by
  intro fuel
  induction fuel with
  | zero =>
    intro c n V hc hnv hm
    exfalso
    have h1 : unvisited g (insertSet V c) < unvisited g V :=
      unvisited_insertSet_lt hc hnv
    omega
  | succ fuel ih =>
    intro c n V hc hnv hm
    rw [traverseGo]
    have hlt : unvisited g (insertSet V c) < unvisited g V :=
      unvisited_insertSet_lt hc hnv
    refine stepFold_suff (fun d V₀ a b c' => ih d n V₀ a b c')
      (fun d V₀ V₁ hok x hx => (traverseGo_ok g fuel d n V₀ V₁ hok).1.1 x hx)
      (g.getDependentsShallow c) (insertSet V c)
      (fun d hd => shallowDeps_subset_mentioned hd) ?_
    omega

theorem traverseGo_total (g : DependencyGraph T) (c n : T) :
    traverseGo g (g.tFuel + 1) c n [] ≠ none := by
  by_cases hc : c ∈ g.mentioned
  · refine traverseGo_suff g (g.tFuel + 1) c n [] hc (List.not_mem_nil c) ?_
    exact (unvisited_le_tFuel g []).trans (Nat.le_succ _)
  · rw [traverseGo]
    have hd : g.getDependentsShallow c = [] :=
      shallowDeps_nil_of_not_mem_keys (fun hk => hc (mem_keys_mem_mentioned hk))
    rw [hd]
    simp [stepFold]

theorem mem_of_reach_closed {g : DependencyGraph T} {S : List T}
    (hcl : ∀ a, a ∈ S → ∀ b, b ∈ g.getDependentsShallow a → b ∈ S)
    {x y : T} (hx : x ∈ S) (h : Reach g x y) : y ∈ S := by
  induction h with
  | refl => exact hx
  | tail _ hbc ih => exact hcl _ ih _ hbc

theorem cycle_through_iff (g : DependencyGraph T) (f : T) :
    (∃ d, d ∈ g.getDependentsShallow f ∧ Reach g d f) ↔
      ∃ u, Reach g f u ∧ edgeRel g u f := by
  constructor
  · rintro ⟨d, hd, hreach⟩
    rcases Relation.ReflTransGen.cases_tail hreach with heq | ⟨c, hdc, hcf⟩
    · subst heq
      exact ⟨f, Relation.ReflTransGen.refl, hd⟩
    · exact ⟨c, Relation.ReflTransGen.head hd hdc, hcf⟩
  · rintro ⟨u, hreach, hedge⟩
    rcases Relation.ReflTransGen.cases_head hreach with heq | ⟨c, hfc, hcu⟩
    · subst heq
      exact ⟨f, hedge, Relation.ReflTransGen.refl⟩
    · exact ⟨c, hfc, Relation.ReflTransGen.tail hcu hedge⟩

theorem addDependency_raises_iff (g : DependencyGraph T) (f t : T) :
    (g.addDependency f t).2 = true ↔
      ∃ u, Reach (g.addDependency f t).1 f u ∧ edgeRel (g.addDependency f t).1 u f := by
  have hsnd := addDependency_snd g f t
  have htot := traverseGo_total (g.addDependency f t).1 f f
  cases hres : traverseGo (g.addDependency f t).1 ((g.addDependency f t).1.tFuel + 1)
      f f [] with
  | none => exact absurd hres htot
  | some r =>
    cases r with
    | error e =>
      cases e
      rw [hsnd, hres]
      simp only [checkResultFlag, true_iff]
      exact traverseGo_err (g.addDependency f t).1 _ f f [] hres
    | ok V' =>
      rw [hsnd, hres]
      simp only [checkResultFlag, Bool.false_eq_true, false_iff]
      rintro ⟨u, hru, heu⟩
      obtain ⟨ht, hcf⟩ := traverseGo_ok (g.addDependency f t).1 _ f f [] V' hres
      have hclosed : ∀ a, a ∈ V' →
          ∀ b, b ∈ (g.addDependency f t).1.getDependentsShallow a → b ∈ V' :=
        fun a ha b hb => (ht.2 a ha (List.not_mem_nil a)).2 b hb
      have humem : u ∈ V' := mem_of_reach_closed hclosed hcf hru
      exact (ht.2 u humem (List.not_mem_nil u)).1 heu

/-! ### Acyclicity across a successful `addDependency` -/

theorem reach_into_addDependency {g : DependencyGraph T} {f t a b : T}
    (h : Reach g a b) : Reach (g.addDependency f t).1 a b :=
  Relation.ReflTransGen.mono
    (fun u v hu => (edge_addDependency g f t u v).mpr (Or.inl hu)) h

theorem reach_addDependency_decompose (g : DependencyGraph T) (f t : T) :
    ∀ a b, Reach (g.addDependency f t).1 a b →
      Reach g a b ∨
        (Reach (g.addDependency f t).1 a f ∧ Reach (g.addDependency f t).1 t b) := by
  intro a b h
  induction h with
  | refl => exact Or.inl Relation.ReflTransGen.refl
  | tail hab hbc ih =>
    rename_i b' c'
    rcases (edge_addDependency g f t b' c').mp hbc with he | ⟨rfl, rfl⟩
    · rcases ih with hg | ⟨haf, htb⟩
      · exact Or.inl (Relation.ReflTransGen.tail hg he)
      · refine Or.inr ⟨haf, Relation.ReflTransGen.tail htb ?_⟩
        exact (edge_addDependency g f t b' c').mpr (Or.inl he)
    · rcases ih with hg | ⟨haf, htb⟩
      · exact Or.inr ⟨reach_into_addDependency hg, Relation.ReflTransGen.refl⟩
      · exact Or.inr ⟨haf, Relation.ReflTransGen.refl⟩

theorem acyclic_addDependency_of_success {g : DependencyGraph T} (ha : Acyclic g)
    {f t : T} (h : (g.addDependency f t).2 = false) :
    Acyclic (g.addDependency f t).1 := by
  intro x y hr he
  have hnc : ¬ ∃ u, Reach (g.addDependency f t).1 f u ∧
      edgeRel (g.addDependency f t).1 u f := by
    intro hc
    have h2 := (addDependency_raises_iff g f t).mpr hc
    rw [h] at h2
    exact Bool.false_ne_true h2
  have hedge_ft : edgeRel (g.addDependency f t).1 f t :=
    (edge_addDependency g f t f t).mpr (Or.inr ⟨rfl, rfl⟩)
  have hcyc_tf : Reach (g.addDependency f t).1 t f → False := by
    intro htf
    rcases Relation.ReflTransGen.cases_tail htf with heq | ⟨c, htc, hcf⟩
    · subst heq
      exact hnc ⟨f, Relation.ReflTransGen.refl, hedge_ft⟩
    · exact hnc ⟨c, Relation.ReflTransGen.head hedge_ft htc, hcf⟩
  rcases reach_addDependency_decompose g f t x y hr with hxy | ⟨hxf, hty⟩
  · rcases (edge_addDependency g f t y x).mp he with he' | ⟨rfl, rfl⟩
    · exact ha x y hxy he'
    · exact hcyc_tf (reach_into_addDependency hxy)
  · have htx : Reach (g.addDependency f t).1 t x := Relation.ReflTransGen.tail hty he
    exact hcyc_tf (htx.trans hxf)

theorem runOps_flag_stays_true :
    ∀ (ops : List (GOp T)) (g : DependencyGraph T),
      (runOps (g, true) ops).2 = true := by
  intro ops
  induction ops with
  | nil => intro g; rfl
  | cons op rest ih =>
    intro g
    cases op with
    | addN x => exact ih (g.add x)
    | removeN x => exact ih (g.remove x)
    | addDep f t =>
      simp only [runOps, Bool.true_or]
      exact ih (g.addDependency f t).1

theorem runOps_acyclic :
    ∀ (ops : List (GOp T)) (g : DependencyGraph T) (r : Bool),
      Acyclic g → KeysNodup g → (runOps (g, r) ops).2 = false →
      Acyclic (runOps (g, r) ops).1 ∧ KeysNodup (runOps (g, r) ops).1 := by
  intro ops
  induction ops with
  | nil => exact fun g r ha hk _ => ⟨ha, hk⟩
  | cons op rest ih =>
    intro g r ha hk hflag
    cases op with
    | addN x =>
      exact ih (g.add x) r
        (acyclic_antitone (fun u v h => (edge_add g x u v).mp h) ha)
        (keysNodup_add hk x) hflag
    | removeN x =>
      exact ih (g.remove x) r
        (acyclic_antitone (fun u v h => edge_remove hk x u v h) ha)
        (keysNodup_remove hk x) hflag
    | addDep f t =>
      simp only [runOps] at hflag
      cases hsnd : (g.addDependency f t).2 with
      | true =>
        rw [hsnd, Bool.or_true] at hflag
        rw [runOps_flag_stays_true rest (g.addDependency f t).1] at hflag
        exact absurd hflag (by simp)
      | false =>
        rw [hsnd, Bool.or_false] at hflag
        show Acyclic (runOps ((g.addDependency f t).1,
            r || (g.addDependency f t).2) rest).1 ∧
          KeysNodup (runOps ((g.addDependency f t).1,
            r || (g.addDependency f t).2) rest).1
        rw [hsnd, Bool.or_false]
        exact ih (g.addDependency f t).1 r
          (acyclic_addDependency_of_success ha hsnd)
          (keysNodup_addDependency hk f t) hflag

/-! ### Claims about `addDependency` -/

/-- C1: `addDependency(from, to)` first ensures both endpoints are present and
inserts `to` into `from`'s direct-dependent set, and it raises
`CircularDependencyError` if and only if, in the resulting relation, `from` is
reachable in zero or more further steps from one of its own direct dependents
(a directed cycle through `from`); in particular `addDependency(a, a)` always
raises. -/
theorem claim1 (g : DependencyGraph T) (f t : T) :
    ((g.addDependency f t).1.contains f = true ∧
      (g.addDependency f t).1.contains t = true ∧
      t ∈ (g.addDependency f t).1.getDependentsShallow f) ∧
    ((g.addDependency f t).2 = true ↔
      ∃ d, d ∈ (g.addDependency f t).1.getDependentsShallow f ∧
        Reach (g.addDependency f t).1 d f) ∧
    (g.addDependency f f).2 = true := by
  refine ⟨⟨?_, ?_, ?_⟩, ?_, ?_⟩
  · exact (contains_addDependency g f t f).mpr (Or.inr (Or.inl rfl))
  · exact (contains_addDependency g f t t).mpr (Or.inr (Or.inr rfl))
  · rw [shallowDeps_addDependency, if_pos rfl]
    exact mem_insertSet_self _ t
  · rw [addDependency_raises_iff]
    exact (cycle_through_iff (g.addDependency f t).1 f).symm
  · rw [addDependency_raises_iff]
    refine ⟨f, Relation.ReflTransGen.refl, ?_⟩
    show f ∈ (g.addDependency f f).1.getDependentsShallow f
    rw [shallowDeps_addDependency, if_pos rfl]
    exact mem_insertSet_self _ f

/-- C2: whenever `addDependency(from, to)` raises, the mutation is kept:
both endpoints are present afterwards and `to` is still in `from`'s
direct-dependent set (no rollback). -/
theorem claim2 (g : DependencyGraph T) (f t : T)
    (h : (g.addDependency f t).2 = true) :
    (g.addDependency f t).1.contains f = true ∧
      (g.addDependency f t).1.contains t = true ∧
      t ∈ (g.addDependency f t).1.getDependentsShallow f := by
  refine ⟨?_, ?_, ?_⟩
  · exact (contains_addDependency g f t f).mpr (Or.inr (Or.inl rfl))
  · exact (contains_addDependency g f t t).mpr (Or.inr (Or.inr rfl))
  · rw [shallowDeps_addDependency, if_pos rfl]
    exact mem_insertSet_self _ t

/-- Witness for C2 at the raising call `addDependency(0, 0)` on the empty
graph. -/
theorem claim2_witness :
    ((DependencyGraph.empty Nat).addDependency 0 0).2 = true ∧
      (((DependencyGraph.empty Nat).addDependency 0 0).1.contains 0 = true ∧
        ((DependencyGraph.empty Nat).addDependency 0 0).1.contains 0 = true ∧
        0 ∈ ((DependencyGraph.empty Nat).addDependency 0 0).1.getDependentsShallow 0) :=
  ⟨by decide, claim2 (DependencyGraph.empty Nat) 0 0 (by decide)⟩

/-- C3 fails on the code: in the run `addDependency(0,1)`;
`addDependency(1,0)` (raises, execution continues); `addDependency(2,3)`, the
last call returns successfully while the stored relation still contains the
cycle between 0 and 1, because the cycle check only looks at cycles through
the new edge's source. -/
theorem claim3_counterexample :
    ((runOps (DependencyGraph.empty Nat, false)
        [GOp.addDep 0 1, GOp.addDep 1 0]).1.addDependency 2 3).2 = false ∧
    ¬ Acyclic ((runOps (DependencyGraph.empty Nat, false)
        [GOp.addDep 0 1, GOp.addDep 1 0]).1.addDependency 2 3).1 := by
  constructor
  · decide
  · intro hacy
    exact hacy 0 1 (Relation.ReflTransGen.single (by decide)) (by decide)

/-- C3 (amended): in any run from the empty graph in which no earlier
`addDependency` call raised, the relation is acyclic immediately after each
`addDependency` call that returns successfully. -/
theorem claim3 (ops : List (GOp T)) (f t : T)
    (h1 : (runOps (DependencyGraph.empty T, false) ops).2 = false)
    (h2 : ((runOps (DependencyGraph.empty T, false) ops).1.addDependency f t).2 = false) :
    Acyclic ((runOps (DependencyGraph.empty T, false) ops).1.addDependency f t).1 := by
  obtain ⟨ha, _⟩ := runOps_acyclic ops (DependencyGraph.empty T) false
    acyclic_empty keysNodup_empty h1
  exact acyclic_addDependency_of_success ha h2

/-- Witness for the amended C3: the successful run `addDependency(0,1)` then
`addDependency(2,3)` leaves an acyclic relation. -/
theorem claim3_witness :
    (runOps (DependencyGraph.empty Nat, false) [GOp.addDep 0 1]).2 = false ∧
    ((runOps (DependencyGraph.empty Nat, false)
        [GOp.addDep 0 1]).1.addDependency 2 3).2 = false ∧
    Acyclic ((runOps (DependencyGraph.empty Nat, false)
        [GOp.addDep 0 1]).1.addDependency 2 3).1 :=
  ⟨by decide, by decide, claim3 [GOp.addDep 0 1] 2 3 (by decide) (by decide)⟩

/-! ### Shape of the topological traversal -/

theorem topoFold_shape {g : DependencyGraph T}
    {f : T → List T → List T → Option (List T × List T)} {p : T}
    (hf : ∀ d V₀ L₀ V₁ L₁, d ∉ V₀ → f d V₀ L₀ = some (V₁, L₁) →
      ∃ Ln, L₁ = Ln ++ L₀ ∧ d ∈ Ln ∧ ShapeProps g d V₀ Ln V₁) :
    ∀ {ds V L V' L'}, topoFold f ds V L = some (V', L') →
      (∀ d, d ∈ ds → edgeRel g p d) →
      ∃ Ln, L' = Ln ++ L ∧ ShapeProps g p V Ln V' ∧ ∀ d, d ∈ ds → d ∈ V' := by
  intro ds
  induction ds with
  | nil =>
    intro V L V' L' h _
    simp only [topoFold, Option.some.injEq, Prod.mk.injEq] at h
    obtain ⟨rfl, rfl⟩ := h
    exact ⟨[], rfl,
      ⟨fun x => by simp, fun x hx => absurd hx (List.not_mem_nil x),
        fun x hx => absurd hx (List.not_mem_nil x),
        fun u hu => absurd hu (List.not_mem_nil u)⟩,
      fun d hd => absurd hd (List.not_mem_nil d)⟩
  | cons d rest ih =>
    intro V L V' L' h hp
    simp only [topoFold] at h
    by_cases h2 : d ∈ V
    · rw [if_pos h2] at h
      obtain ⟨Ln, hLeq, ⟨hiff, hnew, hreach, hcov⟩, hds⟩ :=
        ih h (fun e he => hp e (List.mem_cons_of_mem d he))
      refine ⟨Ln, hLeq, ⟨hiff, hnew, hreach, hcov⟩, fun e he => ?_⟩
      rcases List.mem_cons.mp he with rfl | he
      · exact (hiff e).mpr (Or.inl h2)
      · exact hds e he
    · rw [if_neg h2] at h
      cases hfd : f d V L with
      | none => rw [hfd] at h; exact absurd h (by simp)
      | some r =>
        obtain ⟨V₁, L₁⟩ := r
        rw [hfd] at h
        obtain ⟨Ln₁, hL₁eq, hdLn₁, hiff₁, hnew₁, hreach₁, hcov₁⟩ := hf d V L V₁ L₁ h2 hfd
        obtain ⟨Ln₂, hLeq, ⟨hiff₂, hnew₂, hreach₂, hcov₂⟩, hds⟩ :=
          ih h (fun e he => hp e (List.mem_cons_of_mem d he))
        have hedge_pd : edgeRel g p d := hp d (List.mem_cons_self d rest)
        refine ⟨Ln₂ ++ Ln₁, ?_, ⟨?_, ?_, ?_, ?_⟩, ?_⟩
        · rw [hLeq, hL₁eq, List.append_assoc]
        · intro x
          rw [hiff₂ x, hiff₁ x, List.mem_append]
          tauto
        · intro x hx
          rcases List.mem_append.mp hx with hx | hx
          · intro hxV
            exact hnew₂ x hx ((hiff₁ x).mpr (Or.inl hxV))
          · exact hnew₁ x hx
        · intro x hx
          rcases List.mem_append.mp hx with hx | hx
          · exact hreach₂ x hx
          · exact Relation.ReflTransGen.head hedge_pd (hreach₁ x hx)
        · intro u hu
          rcases List.mem_append.mp hu with hu | hu
          · exact hcov₂ u hu
          · exact fun v hv => (hiff₂ v).mpr (Or.inl (hcov₁ u hu v hv))
        · intro e he
          rcases List.mem_cons.mp he with rfl | he
          · exact (hiff₂ e).mpr (Or.inl ((hiff₁ e).mpr (Or.inr hdLn₁)))
          · exact hds e he

theorem topoGo_shape (g : DependencyGraph T) :
    ∀ (fuel : Nat) (node : T) (V L V' L' : List T),
      topoGo g fuel node V L = some (V', L') → node ∉ V →
      ∃ Ln, L' = Ln ++ L ∧ node ∈ Ln ∧ ShapeProps g node V Ln V' := by
  intro fuel
  induction fuel with
  | zero =>
    intro node V L V' L' h
    simp [topoGo] at h
  | succ fuel ih =>
    intro node V L V' L' h hnode
    rw [topoGo] at h
    cases hfold : topoFold (fun d V' L' => topoGo g fuel d V' L')
        (g.getDependentsShallow node) (insertSet V node) L with
    | none => rw [hfold] at h; exact absurd h (by simp)
    | some r =>
      obtain ⟨V₁, L₁⟩ := r
      rw [hfold] at h
      simp only [Option.some.injEq, Prod.mk.injEq] at h
      obtain ⟨rfl, rfl⟩ := h
      obtain ⟨Ln₁, hL₁eq, ⟨hiff, hnew, hreach, hcov⟩, hds⟩ :=
        topoFold_shape (p := node)
          (fun d V₀ L₀ V₂ L₂ hd heq => ih d V₀ L₀ V₂ L₂ heq hd)
          hfold (fun d hd => hd)
      refine ⟨node :: Ln₁, by rw [hL₁eq]; rfl, List.mem_cons_self node Ln₁,
        ?_, ?_, ?_, ?_⟩
      · intro x
        rw [hiff x, mem_insertSet]
        constructor
        · rintro ((hx | rfl) | hx)
          · exact Or.inl hx
          · exact Or.inr (List.mem_cons_self _ _)
          · exact Or.inr (List.mem_cons_of_mem _ hx)
        · rintro (hx | hx)
          · exact Or.inl (Or.inl hx)
          · rcases List.mem_cons.mp hx with rfl | hx
            · exact Or.inl (Or.inr rfl)
            · exact Or.inr hx
      · intro x hx
        rcases List.mem_cons.mp hx with rfl | hx
        · exact hnode
        · exact fun hxV => hnew x hx (mem_insertSet_of_mem node hxV)
      · intro x hx
        rcases List.mem_cons.mp hx with rfl | hx
        · exact Relation.ReflTransGen.refl
        · exact hreach x hx
      · intro u hu
        rcases List.mem_cons.mp hu with rfl | hu
        · exact fun v hv => hds v hv
        · exact hcov u hu

/-! ### Order facts about the accumulated list -/

theorem before_strip {l : List T} {x u v : T} (h : Before (x :: l) u v)
    (hne : u ≠ x) : Before l u v := by
  cases h with
  | cons _ h' => exact h'
  | cons₂ _ h' => exact absurd rfl hne

theorem before_trans :
    ∀ {l : List T}, l.Nodup → ∀ {a b c : T},
      Before l a b → Before l b c → Before l a c := by
  intro l
  induction l with
  | nil =>
    intro _ a b c hab
    exact absurd (List.sublist_nil.mp hab) (by simp)
  | cons x l ih =>
    intro hnd a b c hab hbc
    obtain ⟨hxl, hndl⟩ := List.nodup_cons.mp hnd
    cases hab with
    | cons _ hab' =>
      cases hbc with
      | cons _ hbc' => exact List.Sublist.cons x (ih hndl hab' hbc')
      | cons₂ _ hbc' =>
        exact absurd (hab'.subset (by simp)) hxl
    | cons₂ _ hab' =>
      cases hbc with
      | cons _ hbc' =>
        exact List.Sublist.cons₂ x
          (List.singleton_sublist.mpr (hbc'.subset (by simp)))
      | cons₂ _ hbc' =>
        exact absurd (List.singleton_sublist.mp hab') hxl

theorem orderInv_nil (g : DependencyGraph T) (V : List T) : OrderInv g V [] :=
  ⟨List.nodup_nil, fun x hx => absurd hx (List.not_mem_nil x),
    fun u hu => absurd hu (List.not_mem_nil u)⟩

theorem orderInv_mono_V {g : DependencyGraph T} {V V₂ L : List T}
    (hs : ∀ x, x ∈ V → x ∈ V₂) (h : OrderInv g V L) : OrderInv g V₂ L := by
  obtain ⟨hnd, hsub, hcl⟩ := h
  refine ⟨hnd, fun x hx => hs x (hsub x hx), fun u hu v hv => ?_⟩
  obtain ⟨hb, hvis⟩ := hcl u hu v hv
  exact ⟨hb, fun hnv => hs v (hvis hnv)⟩

theorem topoFold_order {g : DependencyGraph T}
    {f : T → List T → List T → Option (List T × List T)}
    (hf : ∀ d V₀ L₀ V₁ L₁, d ∉ V₀ → f d V₀ L₀ = some (V₁, L₁) →
      OrderInv g V₀ L₀ → OrderInv g V₁ L₁) :
    ∀ {ds V L V' L'}, topoFold f ds V L = some (V', L') →
      OrderInv g V L → OrderInv g V' L' := by
  intro ds
  induction ds with
  | nil =>
    intro V L V' L' h hI
    simp only [topoFold, Option.some.injEq, Prod.mk.injEq] at h
    obtain ⟨rfl, rfl⟩ := h
    exact hI
  | cons d rest ih =>
    intro V L V' L' h hI
    simp only [topoFold] at h
    by_cases h2 : d ∈ V
    · rw [if_pos h2] at h
      exact ih h hI
    · rw [if_neg h2] at h
      cases hfd : f d V L with
      | none => rw [hfd] at h; exact absurd h (by simp)
      | some r =>
        obtain ⟨V₁, L₁⟩ := r
        rw [hfd] at h
        exact ih h (hf d V L V₁ L₁ h2 hfd hI)

theorem topoGo_order (g : DependencyGraph T) (hacy : Acyclic g) :
    ∀ (fuel : Nat) (node : T) (V L V' L' : List T),
      topoGo g fuel node V L = some (V', L') → node ∉ V →
      OrderInv g V L → OrderInv g V' L' := by
  intro fuel
  induction fuel with
  | zero =>
    intro node V L V' L' h
    simp [topoGo] at h
  | succ fuel ih =>
    intro node V L V' L' h hnode hI
    rw [topoGo] at h
    cases hfold : topoFold (fun d V' L' => topoGo g fuel d V' L')
        (g.getDependentsShallow node) (insertSet V node) L with
    | none => rw [hfold] at h; exact absurd h (by simp)
    | some r =>
      obtain ⟨V₁, L₁⟩ := r
      rw [hfold] at h
      simp only [Option.some.injEq, Prod.mk.injEq] at h
      obtain ⟨rfl, rfl⟩ := h
      have hI₁ : OrderInv g V₁ L₁ :=
        topoFold_order (fun d V₀ L₀ V₂ L₂ hd heq hI₀ => ih d V₀ L₀ V₂ L₂ heq hd hI₀)
          hfold (orderInv_mono_V (fun x hx => mem_insertSet_of_mem node hx) hI)
      obtain ⟨Ln₁, hL₁eq, ⟨hiff, hnew, hreach, hcov⟩, hds⟩ :=
        topoFold_shape (p := node)
          (fun d V₀ L₀ V₂ L₂ hd heq => topoGo_shape g fuel d V₀ L₀ V₂ L₂ heq hd)
          hfold (fun d hd => hd)
      obtain ⟨hnd₁, hsub₁, hcl₁⟩ := hI₁
      obtain ⟨hnd₀, hsub₀, hcl₀⟩ := hI
      -- node is not yet listed
      have hnodeL : node ∉ L := fun hm => hnode (hsub₀ node hm)
      have hnodeL₁ : node ∉ L₁ := by
        rw [hL₁eq]
        intro hm
        rcases List.mem_append.mp hm with hm | hm
        · exact hnew node hm (mem_insertSet_self V node)
        · exact hnodeL hm
      have hnodeV₁ : node ∈ V₁ :=
        (hiff node).mpr (Or.inl (mem_insertSet_self V node))
      refine ⟨List.nodup_cons.mpr ⟨hnodeL₁, hnd₁⟩, ?_, ?_⟩
      · intro x hx
        rcases List.mem_cons.mp hx with rfl | hx
        · exact hnodeV₁
        · exact hsub₁ x hx
      · intro u hu v hv
        rcases List.mem_cons.mp hu with hueq | hu
        · -- u = node
          subst hueq
          constructor
          · intro hvL
            by_cases hveq : v = u
            · exact absurd (hveq ▸ hv)
                (fun hvv => hacy u u Relation.ReflTransGen.refl hvv)
            · exact List.Sublist.cons₂ u
                (List.singleton_sublist.mpr ((List.mem_cons.mp hvL).resolve_left hveq))
          · intro _
            exact hds v hv
        · -- u ∈ L₁
          obtain ⟨hb, hvis⟩ := hcl₁ u hu v hv
          constructor
          · intro hvL
            by_cases hveq : v = node
            · -- v = node: impossible, it would close a cycle
              exfalso
              rw [hL₁eq] at hu
              rcases List.mem_append.mp hu with hu' | hu'
              · exact hacy node u (hreach u hu') (hveq ▸ hv)
              · obtain ⟨_, hvis₀⟩ := hcl₀ u hu' v hv
                exact hnode (hveq ▸ hvis₀ (fun hm => hnodeL (hveq ▸ hm)))
            · exact List.Sublist.cons _
                (hb ((List.mem_cons.mp hvL).resolve_left hveq))
          · intro hnv
            exact hvis (fun hm => hnv (List.mem_cons_of_mem node hm))

/-! ### The topological traversals never exhaust their fuel -/

theorem topoFold_suff {g : DependencyGraph T}
    {f : T → List T → List T → Option (List T × List T)} {fuel : Nat}
    (hfs : ∀ d V L, d ∈ g.mentioned → d ∉ V → unvisited g V ≤ fuel →
      f d V L ≠ none)
    (hfsub : ∀ d V L V₁ L₁, d ∉ V → f d V L = some (V₁, L₁) →
      ∀ x, x ∈ V → x ∈ V₁) :
    ∀ (ds V L : List T), (∀ d, d ∈ ds → d ∈ g.mentioned) →
      unvisited g V ≤ fuel → topoFold f ds V L ≠ none := by
  intro ds
  induction ds with
  | nil =>
    intro V L _ _
    simp [topoFold]
  | cons d rest ih =>
    intro V L hds hm
    simp only [topoFold]
    by_cases h2 : d ∈ V
    · rw [if_pos h2]
      exact ih V L (fun e he => hds e (List.mem_cons_of_mem d he)) hm
    · rw [if_neg h2]
      cases hfd : f d V L with
      | none =>
        exact absurd hfd (hfs d V L (hds d (List.mem_cons_self d rest)) h2 hm)
      | some r =>
        obtain ⟨V₁, L₁⟩ := r
        have hsub := hfsub d V L V₁ L₁ h2 hfd
        exact ih V₁ L₁ (fun e he => hds e (List.mem_cons_of_mem d he))
          ((unvisited_le_of_subset hsub).trans hm)

theorem topoGo_suff (g : DependencyGraph T) :
    ∀ (fuel : Nat) (node : T) (V L : List T),
      node ∈ g.mentioned → node ∉ V → unvisited g V ≤ fuel →
      topoGo g fuel node V L ≠ none := by
  intro fuel
  induction fuel with
  | zero =>
    intro node V L hc hnv hm
    exfalso
    have h1 : unvisited g (insertSet V node) < unvisited g V :=
      unvisited_insertSet_lt hc hnv
    omega
  | succ fuel ih =>
    intro node V L hc hnv hm
    rw [topoGo]
    have hlt : unvisited g (insertSet V node) < unvisited g V :=
      unvisited_insertSet_lt hc hnv
    have hfold : topoFold (fun d V' L' => topoGo g fuel d V' L')
        (g.getDependentsShallow node) (insertSet V node) L ≠ none := by
      refine topoFold_suff (fun d V₀ L₀ a b c' => ih d V₀ L₀ a b c')
        (fun d V₀ L₀ V₁ L₁ hd heq x hx => ?_)
        (g.getDependentsShallow node) (insertSet V node) L
        (fun d hd => shallowDeps_subset_mentioned hd) (by omega)
      obtain ⟨_, _, _, ⟨hiff, _, _, _⟩⟩ := topoGo_shape g fuel d V₀ L₀ V₁ L₁ heq hd
      exact (hiff x).mpr (Or.inl hx)
    cases hres : topoFold (fun d V' L' => topoGo g fuel d V' L')
        (g.getDependentsShallow node) (insertSet V node) L with
    | none => exact absurd hres hfold
    | some r =>
      obtain ⟨V₁, L₁⟩ := r
      simp

theorem topoGo_total (g : DependencyGraph T) (node : T) (V L : List T)
    (hnv : node ∉ V) : topoGo g (g.tFuel + 1) node V L ≠ none := by
  by_cases hc : node ∈ g.mentioned
  · exact topoGo_suff g (g.tFuel + 1) node V L hc hnv
      ((unvisited_le_tFuel g V).trans (Nat.le_succ _))
  · rw [topoGo]
    have hd : g.getDependentsShallow node = [] :=
      shallowDeps_nil_of_not_mem_keys (fun hk => hc (mem_keys_mem_mentioned hk))
    rw [hd]
    simp [topoFold]

/-- The list returned by a topological traversal starts with its root. -/
theorem topoGo_head (g : DependencyGraph T) (fuel : Nat) (node : T)
    (V L V' L' : List T) (h : topoGo g (fuel + 1) node V L = some (V', L')) :
    ∃ L₀, L' = node :: L₀ := by
  rw [topoGo] at h
  cases hres : topoFold (fun d V' L' => topoGo g fuel d V' L')
      (g.getDependentsShallow node) (insertSet V node) L with
  | none => rw [hres] at h; exact absurd h (by simp)
  | some r =>
    obtain ⟨V₁, L₁⟩ := r
    rw [hres] at h
    simp only [Option.some.injEq, Prod.mk.injEq] at h
    exact ⟨L₁, h.2.symm⟩

/-! ### The whole-graph sort loop -/

theorem sortGo_spec (g : DependencyGraph T) (hacy : Acyclic g) :
    ∀ (ks V L : List T), (∀ k, k ∈ ks → k ∈ g.keys) →
      OrderInv g V L → (∀ x, x ∈ V ↔ x ∈ L) →
      ∃ Vf Lf, sortGo g ks V L = some Lf ∧ OrderInv g Vf Lf ∧
        (∀ x, x ∈ Vf ↔ x ∈ Lf) ∧ (∀ k, k ∈ ks → k ∈ Lf) ∧
        (∀ x, x ∈ L → x ∈ Lf) := by
  intro ks
  induction ks with
  | nil =>
    intro V L _ hI hVL
    exact ⟨V, L, rfl, hI, hVL, fun k hk => absurd hk (List.not_mem_nil k),
      fun x hx => hx⟩
  | cons k ks ih =>
    intro V L hks hI hVL
    by_cases h2 : k ∈ V
    · have heq : sortGo g (k :: ks) V L = sortGo g ks V L := by
        simp only [sortGo, if_pos h2]
      rw [heq]
      obtain ⟨Vf, Lf, hsort, hIf, hVLf, hkf, hLf⟩ :=
        ih V L (fun e he => hks e (List.mem_cons_of_mem k he)) hI hVL
      refine ⟨Vf, Lf, hsort, hIf, hVLf, fun e he => ?_, hLf⟩
      rcases List.mem_cons.mp he with rfl | he
      · exact hLf e ((hVL e).mp h2)
      · exact hkf e he
    · have htot := topoGo_total g k V L h2
      cases hres : topoGo g (g.tFuel + 1) k V L with
      | none => exact absurd hres htot
      | some r =>
        obtain ⟨V₁, L₁⟩ := r
        have heq : sortGo g (k :: ks) V L = sortGo g ks V₁ L₁ := by
          simp only [sortGo, if_neg h2, hres]
        rw [heq]
        have hI₁ : OrderInv g V₁ L₁ :=
          topoGo_order g hacy (g.tFuel + 1) k V L V₁ L₁ hres h2 hI
        obtain ⟨Ln, hL₁eq, hkLn, ⟨hiff, _, _, _⟩⟩ :=
          topoGo_shape g (g.tFuel + 1) k V L V₁ L₁ hres h2
        have hVL₁ : ∀ x, x ∈ V₁ ↔ x ∈ L₁ := by
          intro x
          rw [hiff x, hL₁eq, List.mem_append, hVL x]
          tauto
        obtain ⟨Vf, Lf, hsort, hIf, hVLf, hkf, hLf⟩ :=
          ih V₁ L₁ (fun e he => hks e (List.mem_cons_of_mem k he)) hI₁ hVL₁
        refine ⟨Vf, Lf, hsort, hIf, hVLf, fun e he => ?_, fun x hx => ?_⟩
        · rcases List.mem_cons.mp he with rfl | he
          · exact hLf e (by rw [hL₁eq]; exact List.mem_append.mpr (Or.inl hkLn))
          · exact hkf e he
        · exact hLf x (by rw [hL₁eq]; exact List.mem_append.mpr (Or.inr hx))

/-! ### Totality of the public queries -/

theorem sortGo_ne_none (g : DependencyGraph T) :
    ∀ (ks V L : List T), (∀ k, k ∈ ks → k ∈ g.keys) → sortGo g ks V L ≠ none := by
  intro ks
  induction ks with
  | nil =>
    intro V L _
    simp [sortGo]
  | cons k ks ih =>
    intro V L hks
    simp only [sortGo]
    by_cases h2 : k ∈ V
    · rw [if_pos h2]
      exact ih V L (fun e he => hks e (List.mem_cons_of_mem k he))
    · rw [if_neg h2]
      cases hres : topoGo g (g.tFuel + 1) k V L with
      | none => exact absurd hres (topoGo_total g k V L h2)
      | some r =>
        obtain ⟨V₁, L₁⟩ := r
        exact ih V₁ L₁ (fun e he => hks e (List.mem_cons_of_mem k he))

theorem getDependentsDeep_ne_none (g : DependencyGraph T) (node : T) :
    g.getDependentsDeep node ≠ none := by
  unfold DependencyGraph.getDependentsDeep
  by_cases hc : g.contains node = true
  · rw [if_pos hc]
    cases hres : topoGo g (g.tFuel + 1) node [] [] with
    | none => exact absurd hres (topoGo_total g node [] [] (List.not_mem_nil node))
    | some r =>
      obtain ⟨V₁, L₁⟩ := r
      simp
  · rw [if_neg hc]
    simp

/-- The one-edge test graph is acyclic. -/
theorem acyclic_gAB : Acyclic gAB := by
  have hchar : ∀ u v : Nat, edgeRel gAB u v → u = 0 ∧ v = 1 := by
    intro u v h
    unfold edgeRel at h
    by_cases h0 : u = 0
    · subst h0
      have hd : gAB.getDependentsShallow 0 = [1] := rfl
      rw [hd] at h
      exact ⟨rfl, List.mem_singleton.mp h⟩
    · by_cases h1 : u = 1
      · subst h1
        have hd : gAB.getDependentsShallow 1 = [] := rfl
        rw [hd] at h
        exact absurd h (List.not_mem_nil v)
      · have hd : gAB.getDependentsShallow u = [] := by
          unfold DependencyGraph.getDependentsShallow gAB lookupRel
          rw [if_neg (fun h => h0 h.symm)]
          unfold lookupRel
          rw [if_neg (fun h => h1 h.symm)]
          rfl
        rw [hd] at h
        exact absurd h (List.not_mem_nil v)
  intro x y hr he
  obtain ⟨hy0, hx1⟩ := hchar y x he
  subst hy0
  subst hx1
  rcases Relation.ReflTransGen.cases_head hr with heq | ⟨c, h1c, _⟩
  · exact absurd heq (by decide)
  · exact absurd (hchar 1 c h1c).1 (by decide)

/-! ### Claims about the topological queries -/

/-- C4: for every acyclic graph state, `getTopologicalSort` returns a
sequence that is duplicate-free, contains every node of the graph, and places
`from` before `to` for every stored edge, across all components. -/
theorem claim4 (g : DependencyGraph T) (hacy : Acyclic g) :
    ∃ L, g.getTopologicalSort = some L ∧ L.Nodup ∧
      (∀ u, g.contains u = true → u ∈ L) ∧
      (∀ u v, edgeRel g u v → Before L u v) := by
  obtain ⟨Vf, Lf, hsort, hIf, hVLf, hks, _⟩ :=
    sortGo_spec g hacy g.keys [] [] (fun k hk => hk) (orderInv_nil g [])
      (by intro x; simp)
  refine ⟨Lf, hsort, hIf.1, ?_, ?_⟩
  · exact fun u hu => hks u (contains_iff_mem_keys.mp hu)
  · intro u v he
    have hu : u ∈ Lf := hks u (edge_mem_keys he)
    obtain ⟨hb, hvis⟩ := hIf.2.2 u hu v he
    by_cases hvL : v ∈ Lf
    · exact hb hvL
    · exact absurd ((hVLf v).mp (hvis hvL)) hvL

/-- Witness for C4 on the concrete acyclic graph with the single edge
0 to 1. -/
theorem claim4_witness :
    ∃ L, gAB.getTopologicalSort = some L ∧ L.Nodup ∧
      (∀ u, gAB.contains u = true → u ∈ L) ∧
      (∀ u v, edgeRel gAB u v → Before L u v) :=
  claim4 gAB acyclic_gAB

/-- C5: for an acyclic graph and a present node `x`, the deep
`getDependents(x)` returns exactly the nodes reachable from `x` in one or
more steps, without duplicates, excluding `x`, ordered so that a returned
node always precedes every returned node it has a path to. -/
theorem claim5 (g : DependencyGraph T) (x : T) (hacy : Acyclic g)
    (hc : g.contains x = true) :
    ∃ l, g.getDependentsDeep x = some l ∧ x ∉ l ∧ l.Nodup ∧
      (∀ y, y ∈ l ↔ Relation.TransGen (edgeRel g) x y) ∧
      (∀ u v, u ∈ l → v ∈ l → Relation.TransGen (edgeRel g) u v →
        Before l u v) := by
  have hnotself : ∀ a, Relation.TransGen (edgeRel g) a a → False := by
    intro a h
    obtain ⟨b, hab, hba⟩ := Relation.TransGen.tail'_iff.mp h
    exact hacy a b hab hba
  have htot := topoGo_total g x [] [] (List.not_mem_nil x)
  cases hres : topoGo g (g.tFuel + 1) x [] [] with
  | none => exact absurd hres htot
  | some r =>
    obtain ⟨V₁, L₁⟩ := r
    obtain ⟨L₀, rfl⟩ := topoGo_head g g.tFuel x [] [] V₁ L₁ hres
    have hdeep : g.getDependentsDeep x = some L₀ := by
      unfold DependencyGraph.getDependentsDeep
      rw [if_pos hc, hres]
      rfl
    have hI : OrderInv g V₁ (x :: L₀) :=
      topoGo_order g hacy (g.tFuel + 1) x [] [] V₁ (x :: L₀) hres
        (List.not_mem_nil x) (orderInv_nil g [])
    obtain ⟨Ln, hLeq, hxLn, ⟨hiff, hnew, hreach, hcov⟩⟩ :=
      topoGo_shape g (g.tFuel + 1) x [] [] V₁ (x :: L₀) hres (List.not_mem_nil x)
    have hLnEq : Ln = x :: L₀ := by
      rw [List.append_nil] at hLeq
      exact hLeq.symm
    subst hLnEq
    obtain ⟨hnd, hsub, hcl⟩ := hI
    have hxL₀ : x ∉ L₀ := (List.nodup_cons.mp hnd).1
    have hndL₀ : L₀.Nodup := (List.nodup_cons.mp hnd).2
    have hViff : ∀ y, y ∈ V₁ ↔ y ∈ x :: L₀ := by
      intro y
      rw [hiff y]
      simp
    have hclosure : ∀ a, a ∈ V₁ → ∀ b, b ∈ g.getDependentsShallow a → b ∈ V₁ :=
      fun a ha b hb => hcov a ((hViff a).mp ha) b hb
    have hmem : ∀ y, y ∈ L₀ ↔ Relation.TransGen (edgeRel g) x y := by
      intro y
      constructor
      · intro hy
        have hr : Reach g x y := hreach y (List.mem_cons_of_mem x hy)
        have hne : y ≠ x := fun heq => hxL₀ (heq ▸ hy)
        rcases Relation.ReflTransGen.cases_head hr with heq | ⟨c, hxc, hcy⟩
        · exact absurd heq.symm hne
        · exact Relation.TransGen.head' hxc hcy
      · intro hy
        have hr : Reach g x y := hy.to_reflTransGen
        have hxV : x ∈ V₁ := (hViff x).mpr (List.mem_cons_self x L₀)
        have hyV : y ∈ V₁ := mem_of_reach_closed hclosure hxV hr
        rcases List.mem_cons.mp ((hViff y).mp hyV) with heq | hyL
        · exact absurd (heq ▸ hy) (hnotself _)
        · exact hyL
    have hstrip : ∀ a b, a ∈ L₀ → Before (x :: L₀) a b → Before L₀ a b :=
      fun a b ha hb => before_strip hb (fun heq => hxL₀ (heq ▸ ha))
    have hedge_before : ∀ a b, a ∈ L₀ → b ∈ x :: L₀ →
        edgeRel g a b → Before L₀ a b := by
      intro a b ha hb he
      obtain ⟨hbf, _⟩ := hcl a (List.mem_cons_of_mem x ha) b he
      exact hstrip a b ha (hbf hb)
    have horder : ∀ u, u ∈ L₀ → ∀ v, Relation.TransGen (edgeRel g) u v →
        v ∈ L₀ → Before L₀ u v := by
      intro u hu v htg
      induction htg with
      | single he =>
        intro hvL
        exact hedge_before u _ hu (List.mem_cons_of_mem x hvL) he
      | tail ht he ih =>
        intro hcL
        rename_i b c
        have hbV : b ∈ V₁ :=
          mem_of_reach_closed hclosure
            ((hViff u).mpr (List.mem_cons_of_mem x hu)) ht.to_reflTransGen
        rcases List.mem_cons.mp ((hViff b).mp hbV) with hbeq | hbL
        · exact absurd (((hmem u).mp hu).trans (hbeq ▸ ht)) (hnotself x)
        · exact before_trans hndL₀ (ih hbL)
            (hedge_before b c hbL (List.mem_cons_of_mem x hcL) he)
    exact ⟨L₀, hdeep, hxL₀, hndL₀, hmem,
      fun u v hu hv htg => horder u hu v htg hv⟩

/-- Witness for C5 on the one-edge graph, at its present node 0. -/
theorem claim5_witness :
    gAB.contains 0 = true ∧
    ∃ l, gAB.getDependentsDeep 0 = some l ∧ 0 ∉ l ∧ l.Nodup ∧
      (∀ y, y ∈ l ↔ Relation.TransGen (edgeRel gAB) 0 y) ∧
      (∀ u v, u ∈ l → v ∈ l → Relation.TransGen (edgeRel gAB) u v →
        Before l u v) :=
  ⟨by decide, claim5 gAB 0 acyclic_gAB (by decide)⟩

/-- C7 fails on the code for `getAdjacentNodes`: looking up a node that was
never added returns the absent-value result `undefined` (here `none`), not an
empty set. -/
theorem claim7_counterexample :
    (DependencyGraph.empty Nat).getAdjacentNodes 0 = none ∧
      (DependencyGraph.empty Nat).getAdjacentNodes 0 ≠ some [] := by
  constructor
  · rfl
  · intro h
    simp [DependencyGraph.getAdjacentNodes, DependencyGraph.empty, lookupRel] at h

/-- C7 (amended): for an item not contained in the graph, `getDependents`
returns an empty result for both `shallow` flags and does not raise, while
`getAdjacentNodes` returns the absent-value result `undefined` (`none`)
rather than an empty set. -/
theorem claim7 (g : DependencyGraph T) (x : T) (h : g.contains x = false) :
    g.getDependentsShallow x = [] ∧ g.getDependentsDeep x = some [] ∧
      g.getAdjacentNodes x = none := by
  have hnk : x ∉ g.keys := by
    intro hk
    have h2 := contains_iff_mem_keys.mpr hk
    rw [h] at h2
    exact Bool.false_ne_true h2
  refine ⟨shallowDeps_nil_of_not_mem_keys hnk, ?_, lookup_eq_none_of_not_mem hnk⟩
  unfold DependencyGraph.getDependentsDeep
  rw [h]
  simp

/-- Witness for the amended C7: the absent item 0 of the empty graph. -/
theorem claim7_witness :
    (DependencyGraph.empty Nat).contains 0 = false ∧
      ((DependencyGraph.empty Nat).getDependentsShallow 0 = [] ∧
        (DependencyGraph.empty Nat).getDependentsDeep 0 = some [] ∧
        (DependencyGraph.empty Nat).getAdjacentNodes 0 = none) :=
  ⟨by decide, claim7 (DependencyGraph.empty Nat) 0 (by decide)⟩

/-- C8: on every finite graph state, cyclic states included, the cycle-check
traversal, the topological traversal, the whole-graph sort, and the deep
dependent query all run to completion — the fuel charged from the state's
item count is never exhausted. -/
theorem claim8 (g : DependencyGraph T) (current node : T) :
    traverseGo g (g.tFuel + 1) current node [] ≠ none ∧
    topoGo g (g.tFuel + 1) current [] [] ≠ none ∧
    g.getTopologicalSort ≠ none ∧
    g.getDependentsDeep current ≠ none :=
  ⟨traverseGo_total g current node,
    topoGo_total g current [] [] (List.not_mem_nil current),
    sortGo_ne_none g g.keys [] [] (fun k hk => hk),
    getDependentsDeep_ne_none g current⟩

/-! ### The linked list: iteration order and `toString` -/

theorem foldl_insert_items (xs : List T) :
    ∀ (acc : LinkedList T),
      (xs.foldl LinkedList.insert acc).items = xs.reverse ++ acc.items := by
  induction xs with
  | nil => intro acc; simp
  | cons x xs ih =>
    intro acc
    rw [List.foldl_cons, ih (acc.insert x), List.reverse_cons, List.append_assoc]
    rfl

theorem buildLL_items (xs : List T) : (buildLL xs).items = xs.reverse := by
  unfold buildLL LinkedList.emptyList
  rw [foldl_insert_items]
  simp

theorem dropLast_append_ne_nil {l₂ : List T} (h : l₂ ≠ []) (l₁ : List T) :
    (l₁ ++ l₂).dropLast = l₁ ++ l₂.dropLast := by
  rw [List.dropLast_append, if_neg]
  simp [h]

theorem flatMap_sep_ne_nil (reprFn : T → List Char) (y : T) (rest : List T) :
    (y :: rest).flatMap (fun x => reprFn x ++ [' ']) ≠ [] := by
  intro h
  have h2 : (reprFn y ++ [' ']) ++ rest.flatMap (fun x => reprFn x ++ [' ']) = [] := h
  have h3 := congrArg List.length h2
  simp at h3

theorem format_eq_joinSpace (reprFn : T → List Char) :
    ∀ (l : List T),
      (l.flatMap (fun x => reprFn x ++ [' '])).dropLast =
        joinSpace (l.map reprFn) := by
  intro l
  induction l with
  | nil => rfl
  | cons x l ih =>
    cases l with
    | nil =>
      show ((reprFn x ++ [' ']) ++ []).dropLast = joinSpace [reprFn x]
      rw [List.append_nil, dropLast_append_ne_nil (by simp)]
      simp [joinSpace]
    | cons y rest =>
      show ((reprFn x ++ [' ']) ++
          (y :: rest).flatMap (fun x => reprFn x ++ [' '])).dropLast =
        joinSpace (reprFn x :: reprFn y :: rest.map reprFn)
      rw [dropLast_append_ne_nil (flatMap_sep_ne_nil reprFn y rest)]
      rw [show ((y :: rest).flatMap (fun x => reprFn x ++ [' '])).dropLast =
          joinSpace ((y :: rest).map reprFn) from ih]
      rw [joinSpace, List.append_assoc]
      rfl

/-- C9: after inserting items in order into a fresh list, iteration produces
them most-recently-inserted first, and `toString` renders them in that order
joined by single spaces with no trailing separator, the empty list rendering
as the empty string. -/
theorem claim9 (xs : List T) (reprFn : T → List Char) :
    (buildLL xs).toList = xs.reverse ∧
    (buildLL xs).format reprFn = joinSpace (xs.reverse.map reprFn) ∧
    (LinkedList.emptyList T).format reprFn = [] := by
  refine ⟨buildLL_items xs, ?_, rfl⟩
  unfold LinkedList.format
  rw [buildLL_items]
  exact format_eq_joinSpace reprFn xs.reverse

/-! ### Facts about `indexOf` and `substring` -/

theorem findFromAux_some (s pat : List Char) :
    ∀ (fuel i k : Nat), i ≤ k → k + 1 ≤ i + fuel →
      k + pat.length ≤ s.length → isMatch pat (s.drop k) = true →
      (∀ j, i ≤ j → j < k → isMatch pat (s.drop j) = false) →
      findFromAux s pat fuel i = some k := by
  intro fuel
  induction fuel with
  | zero =>
    intro i k h1 h2
    omega
  | succ fuel ih =>
    intro i k h1 h2 h3 h4 h5
    rw [findFromAux]
    rw [if_pos (by omega)]
    by_cases hik : i = k
    · subst hik
      rw [h4]
      simp
    · have hif : isMatch pat (s.drop i) = false := h5 i (Nat.le_refl i) (by omega)
      rw [hif]
      simp only [Bool.false_eq_true, if_false]
      exact ih (i + 1) k (by omega) (by omega) h3 h4
        (fun j hj1 hj2 => h5 j (by omega) hj2)

theorem findFromAux_none (s pat : List Char) :
    ∀ (fuel i : Nat),
      (∀ j, i ≤ j → j + pat.length ≤ s.length → isMatch pat (s.drop j) = false) →
      findFromAux s pat fuel i = none := by
  intro fuel
  induction fuel with
  | zero => intro i _; rfl
  | succ fuel ih =>
    intro i h
    rw [findFromAux]
    by_cases hg : i + pat.length ≤ s.length
    · rw [if_pos hg, h i (Nat.le_refl i) hg]
      simp only [Bool.false_eq_true, if_false]
      exact ih (i + 1) (fun j hj1 hj2 => h j (by omega) hj2)
    · rw [if_neg hg]

theorem findFrom_some {s pat : List Char} {start k : Nat} (h1 : start ≤ k)
    (h3 : k + pat.length ≤ s.length) (h4 : isMatch pat (s.drop k) = true)
    (h5 : ∀ j, start ≤ j → j < k → isMatch pat (s.drop j) = false) :
    findFrom s pat start = some k := by
  unfold findFrom
  exact findFromAux_some s pat _ start k h1 (by omega) h3 h4 h5

theorem findFrom_none {s pat : List Char} {start : Nat}
    (h : ∀ j, start ≤ j → j + pat.length ≤ s.length →
      isMatch pat (s.drop j) = false) :
    findFrom s pat start = none :=
  findFromAux_none s pat _ start h

theorem findFromAux_shift (a s pat : List Char) :
    ∀ (fuel k : Nat),
      findFromAux (a ++ s) pat fuel (a.length + k) =
        (findFromAux s pat fuel k).map (fun j => a.length + j) := by
  intro fuel
  induction fuel with
  | zero => intro k; rfl
  | succ fuel ih =>
    intro k
    rw [findFromAux, findFromAux]
    have hlen : (a ++ s).length = a.length + s.length := List.length_append a s
    by_cases hg : k + pat.length ≤ s.length
    · rw [if_pos (by omega), if_pos hg, List.drop_append]
      cases hm : isMatch pat (s.drop k) with
      | true => simp
      | false =>
        simp only [Bool.false_eq_true, if_false]
        rw [show a.length + k + 1 = a.length + (k + 1) from by omega]
        exact ih (k + 1)
    · rw [if_neg (by omega), if_neg hg]
      rfl

theorem findFrom_shift (a s pat : List Char) (k : Nat) :
    findFrom (a ++ s) pat (a.length + k) =
      (findFrom s pat k).map (fun j => a.length + j) := by
  unfold findFrom
  rw [show (a ++ s).length + 1 - (a.length + k) = s.length + 1 - k from by
    rw [List.length_append]; omega]
  exact findFromAux_shift a s pat _ k

theorem substrNat_shift (a s : List Char) (i j : Nat) :
    substrNat (a ++ s) (a.length + i) (a.length + j) = substrNat s i j := by
  unfold substrNat
  rw [List.drop_append]
  congr 1
  omega

theorem substrNat_take (s tail2 : List Char) :
    substrNat (s ++ tail2) 0 s.length = s := by
  unfold substrNat
  simp

theorem isMatch_self_append : ∀ (pat r : List Char), isMatch pat (pat ++ r) = true := by
  intro pat
  induction pat with
  | nil => intro r; rfl
  | cons p ps ih =>
    intro r
    show (p == p && isMatch ps (ps ++ r)) = true
    rw [beq_self_eq_true, ih r]
    rfl

theorem isMatch_single_cons (c₀ c : Char) (rest : List Char) :
    isMatch [c₀] (c :: rest) = (c₀ == c) := by
  show (c₀ == c && isMatch [] rest) = (c₀ == c)
  rw [show isMatch [] rest = true from rfl, Bool.and_true]

theorem isMatch_arrow_cons_cons (c₁ c₂ : Char) (rest : List Char)
    (h : ¬(c₁ = '-' ∧ c₂ = '>')) :
    isMatch arrowToken (c₁ :: c₂ :: rest) = false := by
  show (('-' == c₁) && (('>' == c₂) && isMatch [] rest)) = false
  rw [show isMatch [] rest = true from rfl, Bool.and_true]
  by_cases h1 : c₁ = '-'
  · by_cases h2 : c₂ = '>'
    · exact absurd ⟨h1, h2⟩ h
    · rw [beq_eq_false_iff_ne.mpr (fun hc => h2 hc.symm), Bool.and_false]
  · rw [beq_eq_false_iff_ne.mpr (fun hc => h1 hc.symm), Bool.false_and]

theorem arrowPairFree_no_pair :
    ∀ (f : List Char), arrowPairFree f = true →
      ∀ (o : Nat) (c₁ c₂ : Char) (rest : List Char),
        f.drop o = c₁ :: c₂ :: rest → ¬(c₁ = '-' ∧ c₂ = '>') := by
  intro f
  induction f with
  | nil =>
    intro _ o c₁ c₂ rest h
    simp at h
  | cons a f' ih =>
    intro hap o c₁ c₂ rest h
    cases f' with
    | nil =>
      cases o with
      | zero => simp at h
      | succ o' =>
        rw [List.drop_succ_cons] at h
        simp at h
    | cons b f'' =>
      have hap' : (!(a == '-' && b == '>') && arrowPairFree (b :: f'')) = true := hap
      rw [Bool.and_eq_true] at hap'
      obtain ⟨hnab, hrest⟩ := hap'
      cases o with
      | zero =>
        simp only [List.drop_zero, List.cons.injEq] at h
        obtain ⟨rfl, rfl, -⟩ := h
        intro ⟨h1, h2⟩
        subst h1
        subst h2
        simp at hnab
      | succ o' =>
        rw [List.drop_succ_cons] at h
        exact ih hrest o' c₁ c₂ rest h

theorem findFrom_arrow_first (f Z : List Char) (hf : arrowPairFree f = true) :
    findFrom (f ++ (arrowToken ++ Z)) arrowToken 0 = some f.length := by
  apply findFrom_some (Nat.zero_le _)
  · rw [List.length_append, List.length_append]
    omega
  · rw [show (f ++ (arrowToken ++ Z)).drop f.length = arrowToken ++ Z from by
      rw [show f.length = f.length + 0 from rfl, List.drop_append]
      rfl]
    exact isMatch_self_append arrowToken Z
  · intro j _ hj
    have hdrop : (f ++ (arrowToken ++ Z)).drop j =
        f.drop j ++ (arrowToken ++ Z) := by
      rw [List.drop_append_eq_append_drop,
        show j - f.length = 0 from by omega, List.drop_zero]
    rw [hdrop]
    have hlen : (f.drop j).length = f.length - j := List.length_drop j f
    cases hfd : f.drop j with
    | nil =>
      rw [hfd] at hlen
      simp at hlen
      omega
    | cons c₁ frest =>
      cases frest with
      | nil =>
        show isMatch arrowToken (c₁ :: ('-' :: ('>' :: Z))) = false
        by_cases h1 : c₁ = '-'
        · subst h1
          exact isMatch_arrow_cons_cons '-' '-' _ (fun h => by
            obtain ⟨-, h2⟩ := h
            exact absurd h2 (by decide))
        · exact isMatch_arrow_cons_cons c₁ '-' _ (fun h => h1 h.1)
      | cons c₂ frest2 =>
        show isMatch arrowToken (c₁ :: c₂ :: (frest2 ++ (arrowToken ++ Z))) = false
        exact isMatch_arrow_cons_cons c₁ c₂ _
          (arrowPairFree_no_pair f hf j c₁ c₂ frest2 hfd)

theorem findFrom_first_single (t tail2 : List Char) (c₀ : Char) (ht : c₀ ∉ t) :
    findFrom (t ++ (c₀ :: tail2)) [c₀] 0 = some t.length := by
  apply findFrom_some (Nat.zero_le _)
  · rw [List.length_append]
    simp
  · rw [show (t ++ (c₀ :: tail2)).drop t.length = c₀ :: tail2 from by
      rw [show t.length = t.length + 0 from rfl, List.drop_append]
      rfl]
    rw [isMatch_single_cons, beq_self_eq_true]
  · intro j _ hj
    have hdrop : (t ++ (c₀ :: tail2)).drop j = t.drop j ++ (c₀ :: tail2) := by
      rw [List.drop_append_eq_append_drop,
        show j - t.length = 0 from by omega, List.drop_zero]
    rw [hdrop]
    have hlen : (t.drop j).length = t.length - j := List.length_drop j t
    cases hfd : t.drop j with
    | nil =>
      rw [hfd] at hlen
      simp at hlen
      omega
    | cons c rest =>
      have hct : c ∈ t := List.drop_subset j t (hfd ▸ List.mem_cons_self c rest)
      show isMatch [c₀] (c :: (rest ++ (c₀ :: tail2))) = false
      rw [isMatch_single_cons]
      exact beq_eq_false_iff_ne.mpr (fun hc => ht (hc ▸ hct))

/-! ### Stepping the parse loop -/

theorem generateGo_step_stop_none (fuel : Nat) (g : DependencyGraph (List Char))
    (s : List Char) (start : Nat)
    (hfind : findFrom s arrowToken start = none) :
    generateGo (fuel + 1) g s start = some (Except.ok g) := by
  rw [generateGo, hfind]

theorem generateGo_step_stop_zero (fuel : Nat) (g : DependencyGraph (List Char))
    (s : List Char) (start : Nat)
    (hfind : findFrom s arrowToken start = some 0) :
    generateGo (fuel + 1) g s start = some (Except.ok g) := by
  rw [generateGo, hfind]
  simp

theorem generateGo_step_edge (fuel : Nat) (g : DependencyGraph (List Char))
    (s : List Char) (start index nl : Nat)
    (hfind : findFrom s arrowToken start = some index) (hne : ¬ index = 0)
    (hnl : findFrom s ['\n'] index = some nl) :
    generateGo (fuel + 1) g s start =
      (if (g.addDependency (substrNat s start index)
            (substrNat s (index + 2) nl)).2 = true
        then some (Except.error ())
        else generateGo fuel
          (g.addDependency (substrNat s start index)
            (substrNat s (index + 2) nl)).1 s (nl + 1)) := by
  rw [generateGo, hfind]
  simp only []
  rw [if_neg hne, hnl]

/-! ### Parsing the serialized text of an edge list -/

theorem generateGo_parse :
    ∀ (es : List (List Char × List Char)) (done : List Char)
      (g : DependencyGraph (List Char)) (fuel : Nat),
      (∀ e, e ∈ es → e.1 ≠ [] ∧ arrowPairFree e.1 = true ∧ '\n' ∉ e.1 ∧
        arrowPairFree e.2 = true ∧ '\n' ∉ e.2) →
      es.length + 1 ≤ fuel →
      generateGo fuel g (done ++ linesFlat es) done.length = some (foldAdd g es) := by
  intro es
  induction es with
  | nil =>
    intro done g fuel _ hfuel
    obtain ⟨fuel', rfl⟩ : ∃ k, fuel = k + 1 := ⟨fuel - 1, by omega⟩
    have hfind : findFrom (done ++ linesFlat []) arrowToken done.length = none := by
      apply findFrom_none
      intro j hj hlen
      exfalso
      have hl : (done ++ linesFlat []).length = done.length := by
        simp [linesFlat]
      have ha : arrowToken.length = 2 := rfl
      omega
    rw [generateGo_step_stop_none fuel' g _ done.length hfind]
    rfl
  | cons e rest ih =>
    intro done g fuel hwf hfuel
    obtain ⟨f, t⟩ := e
    obtain ⟨hfne, hfap, hfnl, htap, htnl⟩ := hwf (f, t) (List.mem_cons_self _ _)
    obtain ⟨fuel', rfl⟩ : ∃ k, fuel = k + 1 := ⟨fuel - 1, by omega⟩
    have hS : linesFlat ((f, t) :: rest) =
        f ++ (arrowToken ++ (t ++ ('\n' :: linesFlat rest))) := by
      simp [linesFlat, lineOf, List.append_assoc]
    rw [hS]
    have hfpos : 0 < f.length := List.length_pos.mpr hfne
    have hfindA : findFrom
        (done ++ (f ++ (arrowToken ++ (t ++ ('\n' :: linesFlat rest)))))
        arrowToken done.length = some (done.length + f.length) := by
      have h0 := findFrom_shift done
        (f ++ (arrowToken ++ (t ++ ('\n' :: linesFlat rest)))) arrowToken 0
      rw [findFrom_arrow_first f (t ++ ('\n' :: linesFlat rest)) hfap] at h0
      rw [Nat.add_zero] at h0
      simpa using h0
    have hnotin : '\n' ∉ arrowToken ++ t := by
      intro hm
      rcases List.mem_append.mp hm with hm | hm
      · simp [arrowToken] at hm
      · exact htnl hm
    have hfindN : findFrom
        (done ++ (f ++ (arrowToken ++ (t ++ ('\n' :: linesFlat rest)))))
        ['\n'] (done.length + f.length) =
        some (done.length + (f.length + (2 + t.length))) := by
      have h2 : findFrom (arrowToken ++ (t ++ ('\n' :: linesFlat rest))) ['\n'] 0 =
          some (2 + t.length) := by
        have h3 := findFrom_first_single (arrowToken ++ t) (linesFlat rest) '\n' hnotin
        rw [List.append_assoc] at h3
        rw [show (arrowToken ++ t).length = 2 + t.length from by
          simp [arrowToken]
          omega] at h3
        exact h3
      have h1 := findFrom_shift f (arrowToken ++ (t ++ ('\n' :: linesFlat rest))) ['\n'] 0
      rw [Nat.add_zero, h2] at h1
      simp only [Option.map_some'] at h1
      have h0 := findFrom_shift done
        (f ++ (arrowToken ++ (t ++ ('\n' :: linesFlat rest)))) ['\n'] f.length
      rw [h1] at h0
      simp only [Option.map_some'] at h0
      exact h0
    have hfrom : substrNat
        (done ++ (f ++ (arrowToken ++ (t ++ ('\n' :: linesFlat rest)))))
        done.length (done.length + f.length) = f := by
      have h0 := substrNat_shift done
        (f ++ (arrowToken ++ (t ++ ('\n' :: linesFlat rest)))) 0 f.length
      rw [Nat.add_zero] at h0
      rw [h0]
      exact substrNat_take f _
    have hto : substrNat
        (done ++ (f ++ (arrowToken ++ (t ++ ('\n' :: linesFlat rest)))))
        (done.length + f.length + 2) (done.length + (f.length + (2 + t.length))) = t := by
      have h2 := substrNat_shift arrowToken (t ++ ('\n' :: linesFlat rest)) 0 t.length
      rw [show arrowToken.length = 2 from rfl, Nat.add_zero] at h2
      have h1 := substrNat_shift f (arrowToken ++ (t ++ ('\n' :: linesFlat rest))) 2 (2 + t.length)
      rw [h2] at h1
      have h0 := substrNat_shift done
        (f ++ (arrowToken ++ (t ++ ('\n' :: linesFlat rest))))
        (f.length + 2) (f.length + (2 + t.length))
      rw [h1] at h0
      rw [show done.length + f.length + 2 = done.length + (f.length + 2) from by omega]
      rw [h0]
      exact substrNat_take t _
    rw [generateGo_step_edge fuel' g _ done.length (done.length + f.length)
      (done.length + (f.length + (2 + t.length))) hfindA (by omega) hfindN]
    rw [hfrom, hto]
    have hfold : foldAdd g ((f, t) :: rest) =
        (if (g.addDependency f t).2 = true then Except.error ()
          else foldAdd (g.addDependency f t).1 rest) := rfl
    rw [hfold]
    cases hsnd : (g.addDependency f t).2 with
    | true => simp
    | false =>
      simp only [Bool.false_eq_true, if_false]
      have hwf' : ∀ e, e ∈ rest → e.1 ≠ [] ∧ arrowPairFree e.1 = true ∧
          '\n' ∉ e.1 ∧ arrowPairFree e.2 = true ∧ '\n' ∉ e.2 :=
        fun e he => hwf e (List.mem_cons_of_mem _ he)
      have hih := ih (done ++ (f ++ (arrowToken ++ (t ++ ['\n']))))
        (g.addDependency f t).1 fuel' hwf'
        (by simp only [List.length_cons] at hfuel; omega)
      rw [show (done ++ (f ++ (arrowToken ++ (t ++ ['\n'])))) ++ linesFlat rest =
          done ++ (f ++ (arrowToken ++ (t ++ ('\n' :: linesFlat rest)))) from by
        simp [List.append_assoc]] at hih
      rw [show (done ++ (f ++ (arrowToken ++ (t ++ ['\n'])))).length =
          done.length + (f.length + (2 + t.length)) + 1 from by
        simp [arrowToken]
        omega] at hih
      exact hih

/-- C10: whenever the first occurrence of the arrow token in the input is at
index zero or the token does not occur at all, the parsing loop of `Generate`
never runs and the empty graph is returned; in particular this covers the
empty string and inputs whose first line has an empty from-identifier. -/
theorem claim10 (s : List Char)
    (h : findFrom s arrowToken 0 = none ∨ findFrom s arrowToken 0 = some 0) :
    DependencyGraph.Generate s =
        some (Except.ok (DependencyGraph.empty (List Char))) ∧
      (DependencyGraph.empty (List Char)).size = 0 ∧
      (DependencyGraph.empty (List Char)).relationships = [] := by
  refine ⟨?_, rfl, rfl⟩
  unfold DependencyGraph.Generate
  rcases h with h | h
  · exact generateGo_step_stop_none s.length _ s 0 h
  · exact generateGo_step_stop_zero s.length _ s 0 h

/-- Witness for C10 at the empty input string. -/
theorem claim10_witness :
    (findFrom [] arrowToken 0 = none ∨ findFrom [] arrowToken 0 = some 0) ∧
      (DependencyGraph.Generate [] =
          some (Except.ok (DependencyGraph.empty (List Char))) ∧
        (DependencyGraph.empty (List Char)).size = 0 ∧
        (DependencyGraph.empty (List Char)).relationships = []) :=
  ⟨Or.inl (by decide), claim10 [] (Or.inl (by decide))⟩

/-! ### Round-tripping the serialization -/

theorem edge_empty_false {u v : T} (h : edgeRel (DependencyGraph.empty T) u v) :
    False := by
  simp [edgeRel, DependencyGraph.getDependentsShallow, DependencyGraph.empty,
    lookupRel] at h

theorem length_le_linesFlat (es : List (List Char × List Char)) :
    es.length ≤ (linesFlat es).length := by
  induction es with
  | nil => simp [linesFlat]
  | cons e rest ih =>
    have hstep : linesFlat (e :: rest) = lineOf e ++ linesFlat rest := by
      simp [linesFlat]
    rw [hstep, List.length_append]
    have hpos : 0 < (lineOf e).length := by
      unfold lineOf arrowToken
      simp
    simp only [List.length_cons]
    omega

theorem mem_edgeList_iff (g : DependencyGraph T) (u v : T) :
    (u, v) ∈ g.edgeList ↔ edgeRel g u v := by
  unfold DependencyGraph.edgeList
  rw [List.mem_flatMap]
  constructor
  · rintro ⟨k, hk, hm⟩
    rw [List.mem_map] at hm
    obtain ⟨d, hd, heq⟩ := hm
    have h1 : k = u := congrArg Prod.fst heq
    have h2 : d = v := congrArg Prod.snd heq
    subst h1
    subst h2
    exact hd
  · intro h
    refine ⟨u, edge_mem_keys h, ?_⟩
    rw [List.mem_map]
    exact ⟨v, h, rfl⟩

theorem idsGood_wf {g : DependencyGraph (List Char)} (h : g.idsGood = true) :
    ∀ e, e ∈ g.edgeList → e.1 ≠ [] ∧ arrowPairFree e.1 = true ∧ '\n' ∉ e.1 ∧
      arrowPairFree e.2 = true ∧ '\n' ∉ e.2 := by
  intro e he
  have h2 := List.all_eq_true.mp h e he
  rw [Bool.and_eq_true] at h2
  obtain ⟨h1, h2'⟩ := h2
  unfold goodId idArrowNlFree at h1 h2'
  rw [Bool.and_eq_true, Bool.and_eq_true] at h1 h2'
  obtain ⟨hne1, hap1, hnl1⟩ := h1
  obtain ⟨hne2, hap2, hnl2⟩ := h2'
  refine ⟨?_, hap1, ?_, hap2, ?_⟩
  · intro hnil
    rw [hnil] at hne1
    simp at hne1
  · intro hmem
    simp at hnl1
    exact hnl1 hmem
  · intro hmem
    simp at hnl2
    exact hnl2 hmem

theorem foldAdd_ok (G : DependencyGraph (List Char)) (hacy : Acyclic G) :
    ∀ (es : List (List Char × List Char)) (g : DependencyGraph (List Char)),
      (∀ e, e ∈ es → edgeRel G e.1 e.2) →
      (∀ u v, edgeRel g u v → edgeRel G u v) →
      ∃ R, foldAdd g es = Except.ok R ∧
        (∀ u v, edgeRel R u v ↔ (edgeRel g u v ∨ (u, v) ∈ es)) ∧
        (∀ u, R.contains u = true ↔
          (g.contains u = true ∨ ∃ e, e ∈ es ∧ (u = e.1 ∨ u = e.2))) := by
  intro es
  induction es with
  | nil =>
    intro g _ _
    exact ⟨g, rfl, fun u v => by simp, fun u => by simp⟩
  | cons e rest ih =>
    intro g hes hsub
    obtain ⟨f, t⟩ := e
    have hft : edgeRel G f t := hes (f, t) (List.mem_cons_self _ _)
    have hsub' : ∀ u v, edgeRel (g.addDependency f t).1 u v → edgeRel G u v := by
      intro u v hv
      rcases (edge_addDependency g f t u v).mp hv with hv | ⟨rfl, rfl⟩
      · exact hsub u v hv
      · exact hft
    have hsnd : (g.addDependency f t).2 = false := by
      cases hcase : (g.addDependency f t).2 with
      | false => rfl
      | true =>
        exfalso
        obtain ⟨u2, hru, heu⟩ := (addDependency_raises_iff g f t).mp hcase
        exact hacy f u2 (reach_mono hsub' hru) (hsub' _ _ heu)
    have hfold : foldAdd g ((f, t) :: rest) = foldAdd (g.addDependency f t).1 rest := by
      show (if (g.addDependency f t).2 = true then Except.error ()
        else foldAdd (g.addDependency f t).1 rest) = _
      rw [hsnd]
      simp
    rw [hfold]
    obtain ⟨R, hR, hedge, hcont⟩ := ih (g.addDependency f t).1
      (fun e he => hes e (List.mem_cons_of_mem _ he)) hsub'
    refine ⟨R, hR, ?_, ?_⟩
    · intro u v
      rw [hedge u v, edge_addDependency]
      simp only [List.mem_cons, Prod.mk.injEq]
      tauto
    · intro u
      rw [hcont u, contains_addDependency]
      constructor
      · rintro ((h | rfl | rfl) | ⟨e, he, hu⟩)
        · exact Or.inl h
        · exact Or.inr ⟨(u, t), List.mem_cons_self _ _, Or.inl rfl⟩
        · exact Or.inr ⟨(f, u), List.mem_cons_self _ _, Or.inr rfl⟩
        · exact Or.inr ⟨e, List.mem_cons_of_mem _ he, hu⟩
      · rintro (h | ⟨e, he, hu⟩)
        · exact Or.inl (Or.inl h)
        · rcases List.mem_cons.mp he with heq | he
          · subst heq
            rcases hu with rfl | rfl
            · exact Or.inl (Or.inr (Or.inl rfl))
            · exact Or.inl (Or.inr (Or.inr rfl))
          · exact Or.inr ⟨e, he, hu⟩

theorem acyclic_pair (a b : T) (hne : a ≠ b) :
    Acyclic (⟨[(a, [b]), (b, [])], 2⟩ : DependencyGraph T) := by
  have hchar : ∀ u v,
      edgeRel (⟨[(a, [b]), (b, [])], 2⟩ : DependencyGraph T) u v →
        u = a ∧ v = b := by
    intro u v h
    unfold edgeRel DependencyGraph.getDependentsShallow at h
    by_cases h0 : a = u
    · have hl : lookupRel [(a, [b]), (b, [])] u = some [b] := by
        rw [lookupRel, if_pos h0]
      rw [hl] at h
      simp at h
      exact ⟨h0.symm, h⟩
    · by_cases h1 : b = u
      · have hl : lookupRel [(a, [b]), (b, [])] u = some [] := by
          rw [lookupRel, if_neg h0, lookupRel, if_pos h1]
        rw [hl] at h
        simp at h
      · have hl : lookupRel [(a, [b]), (b, [])] u = none := by
          rw [lookupRel, if_neg h0, lookupRel, if_neg h1, lookupRel]
        rw [hl] at h
        simp at h
  intro x y hr he
  obtain ⟨hya, hxb⟩ := hchar y x he
  subst hya
  subst hxb
  rcases Relation.ReflTransGen.cases_head hr with heq | ⟨c, hbc, -⟩
  · exact hne heq.symm
  · exact hne (hchar _ _ hbc).1.symm

/-- C6 fails on the code as stated: the graph with the single edge from the
empty identifier to `b` has identifiers free of the arrow token and newlines,
is acyclic, and serializes to a text whose first arrow token sits at index
zero, so `Generate` of it is the empty graph — the node `b`, which has an
incident edge, is lost. -/
theorem claim6_counterexample :
    gEmptyFrom.idsArrowNlFree = true ∧ Acyclic gEmptyFrom ∧
      edgeRel gEmptyFrom [] ['b'] ∧ gEmptyFrom.contains ['b'] = true ∧
      DependencyGraph.Generate (DependencyGraph.toString gEmptyFrom) =
        some (Except.ok (DependencyGraph.empty (List Char))) ∧
      (DependencyGraph.empty (List Char)).contains ['b'] = false := by
  refine ⟨by decide, ?_, by decide, by decide, by rfl, by decide⟩
  have heq : gEmptyFrom = ⟨[(([] : List Char), [['b']]), (['b'], [])], 2⟩ := rfl
  rw [heq]
  exact acyclic_pair [] ['b'] (by decide)

/-- C6 (amended): for an acyclic graph over textual identifiers that are
nonempty and contain neither the arrow token nor a newline,
`Generate(G.toString())` succeeds and returns a graph with exactly the same
direct-dependent relation as `G`, whose nodes are exactly the endpoints of
that relation — so the isolated nodes of `G` are absent. -/
theorem claim6 (G : DependencyGraph (List Char)) (hacy : Acyclic G)
    (hids : G.idsGood = true) :
    ∃ R, DependencyGraph.Generate (DependencyGraph.toString G) =
        some (Except.ok R) ∧
      (∀ u v, edgeRel R u v ↔ edgeRel G u v) ∧
      (∀ u, R.contains u = true ↔ ∃ v, edgeRel G u v ∨ edgeRel G v u) := by
  have hwf := idsGood_wf hids
  have hfuel : G.edgeList.length + 1 ≤ (DependencyGraph.toString G).length + 1 := by
    have h1 := length_le_linesFlat G.edgeList
    have heq : DependencyGraph.toString G = linesFlat G.edgeList := rfl
    have h2 : (DependencyGraph.toString G).length = (linesFlat G.edgeList).length := by
      rw [heq]
    omega
  have hparse := generateGo_parse G.edgeList [] (DependencyGraph.empty (List Char))
    ((DependencyGraph.toString G).length + 1) hwf hfuel
  have hGen : DependencyGraph.Generate (DependencyGraph.toString G) =
      some (foldAdd (DependencyGraph.empty (List Char)) G.edgeList) := by
    unfold DependencyGraph.Generate
    rw [List.nil_append] at hparse
    exact hparse
  obtain ⟨R, hR, hedge, hcont⟩ := foldAdd_ok G hacy G.edgeList
    (DependencyGraph.empty (List Char))
    (fun e he => (mem_edgeList_iff G e.1 e.2).mp (by rw [Prod.mk.eta]; exact he))
    (fun u v h => absurd h (fun h2 => edge_empty_false h2))
  refine ⟨R, by rw [hGen, hR], ?_, ?_⟩
  · intro u v
    rw [hedge u v]
    constructor
    · rintro (h | h)
      · exact absurd h (fun h2 => edge_empty_false h2)
      · exact (mem_edgeList_iff G u v).mp h
    · intro h
      exact Or.inr ((mem_edgeList_iff G u v).mpr h)
  · intro u
    rw [hcont u]
    constructor
    · rintro (h | ⟨e, he, hu⟩)
      · exact absurd h (by simp [DependencyGraph.contains, DependencyGraph.empty,
          lookupRel])
      · have hedgeE : edgeRel G e.1 e.2 :=
          (mem_edgeList_iff G e.1 e.2).mp (by rw [Prod.mk.eta]; exact he)
        rcases hu with rfl | rfl
        · exact ⟨e.2, Or.inl hedgeE⟩
        · exact ⟨e.1, Or.inr hedgeE⟩
    · rintro ⟨v, h | h⟩
      · exact Or.inr ⟨(u, v), (mem_edgeList_iff G u v).mpr h, Or.inl rfl⟩
      · exact Or.inr ⟨(v, u), (mem_edgeList_iff G v u).mpr h, Or.inr rfl⟩

/-- Witness for the amended C6 on the concrete graph with the single edge
from `a` to `b`. -/
theorem claim6_witness :
    Acyclic gRound ∧ gRound.idsGood = true ∧
      ∃ R, DependencyGraph.Generate (DependencyGraph.toString gRound) =
          some (Except.ok R) ∧
        (∀ u v, edgeRel R u v ↔ edgeRel gRound u v) ∧
        (∀ u, R.contains u = true ↔
          ∃ v, edgeRel gRound u v ∨ edgeRel gRound v u) :=
  ⟨acyclic_pair ['a'] ['b'] (by decide), by decide,
    claim6 gRound (acyclic_pair ['a'] ['b'] (by decide)) (by decide)⟩
